import Mathlib

/-!
Verification of the punctuation/capitalization corpus-preparation pipeline
(`examples/speech_translation/punct_ds_preparation/
prepare_big_data_for_punctuation_capitalization_task_simple.py` and the
progress machinery in
`nemo/collections/nlp/data/token_classification/punctuation_capitalization_dataset.py`).

The Python functions are shallowly embedded: text is `List Char`, files are a
content/position pair, dictionaries are association lists, multiprocessing
queues are lists of the values received in order, and `raise`/`assert` are an
`Except String` error channel.  Randomized choices (`random.sample`,
`random.randint`) become explicit parameters, so theorems quantify over them.
Helper functions imported from the sibling modules
`prepare_small_data_for_punctuation_capitalization_task` ("small") and
`prepare_big_data_for_punctuation_capitalization_task_complex` ("big") are not
part of this repository snapshot; where their behaviour decides a property
they are modelled from the specification, and the model is documented at the
definition.
-/

namespace NeMoPrep

/-! ## get_how_many_segments_to_cut_by_files -/

/-- The loop `for i, s in enumerate(sizes): if s > max_possible_segments_per_file[i]:
sizes[i] = max_possible_segments_per_file[i]` — pointwise clamp of the initial
allocation to the per-file maxima. -/
def clampToMax (sizes0 maxP : List Nat) : List Nat := List.zipWith min sizes0 maxP

/-- The decrease loop of `get_how_many_segments_to_cut_by_files`
(`while sum_ > size and i < len(permutation): ...`): one walk over the
permutation, decrementing positive entries while the sum is too large. -/
def decreaseLoop (size : Nat) : List Nat → List Nat → Nat → List Nat × Nat
  | [], sizes, sum_ => (sizes, sum_)
  | j :: rest, sizes, sum_ =>
    if sum_ > size then
      if sizes.getD j 0 > 0 then
        decreaseLoop size rest (sizes.set j (sizes.getD j 0 - 1)) (sum_ - 1)
      else
        decreaseLoop size rest sizes sum_
    else (sizes, sum_)

/-- One pass of the increase loop (`for j in permutation: ...`).  Returns the
updated sizes and sum, the `was_increase` flag, and whether the pass broke out
because the sum reached `size`. -/
def increasePass (maxP : List Nat) (size : Nat) :
    List Nat → List Nat → Nat → Bool → List Nat × Nat × Bool × Bool
  | [], sizes, sum_, wasIncrease => (sizes, sum_, wasIncrease, false)
  | j :: rest, sizes, sum_, wasIncrease =>
    if sizes.getD j 0 < maxP.getD j 0 then
      let sizes' := sizes.set j (sizes.getD j 0 + 1)
      let sum' := sum_ + 1
      if sum' ≥ size then (sizes', sum', true, true)
      else increasePass maxP size rest sizes' sum' true
    else increasePass maxP size rest sizes sum_ wasIncrease

/-- The increase loop (`was_increase = True; while sum_ < size and was_increase: ...`
followed by `if sum_ < size: raise ValueError(...)`).  The loop adds at least one
segment to the sum per repetition, so `size + 2` units of fuel always suffice;
the fuel-exhaustion branch is unreachable (`increaseLoop_fuel` below). -/
def increaseLoop (maxP : List Nat) (size : Nat) (perm : List Nat) :
    Nat → List Nat → Nat → Except String (List Nat × Nat)
  | 0, _, _ => .error "fuel exhausted"
  | fuel + 1, sizes, sum_ =>
    if sum_ < size then
      match increasePass maxP size perm sizes sum_ false with
      | (sizes', sum', wasIncrease, hit) =>
        if hit then
          if sum' = size then .ok (sizes', sum')
          else .error "AssertionError: sum_ == size"
        else if wasIncrease then increaseLoop maxP size perm fuel sizes' sum'
        else .error "ValueError: Cannot cut required number of segments from the dataset because there is no enough large enough files."
    else .ok (sizes, sum_)

/-- The `if sum_ > size: ... elif sum_ < size: ...` adjustment block of
`get_how_many_segments_to_cut_by_files`. -/
def adjustSizes (maxP : List Nat) (size : Nat) (permDec permInc : List Nat)
    (sizes : List Nat) (sum_ : Nat) : Except String (List Nat × Nat) :=
  if sum_ > size then .ok (decreaseLoop size permDec sizes sum_)
  else if sum_ < size then increaseLoop maxP size permInc (size + 2) sizes sum_
  else .ok (sizes, sum_)

/-- `get_how_many_segments_to_cut_by_files(files, size, max_segment_length, num_jobs)`.
`maxP` is the list `max_possible_segments_per_file` computed by the worker pool;
`sizes0` models the proportional allocation `[round(s / total_size * size) for s in stats]`
(floating-point arithmetic abstracted as an arbitrary nonnegative allocation);
`permDec`/`permInc` are the two `random.sample(list(range(len(sizes))), len(sizes))`
draws.  The three trailing `assert` statements are modelled as error results
(the `all([s >= 0 for s in sizes])` assert is vacuous over `Nat`). -/
def get_how_many_segments_to_cut_by_files (sizes0 maxP : List Nat) (size : Nat)
    (permDec permInc : List Nat) : Except String (List Nat) :=
  match adjustSizes maxP size permDec permInc (clampToMax sizes0 maxP)
      (clampToMax sizes0 maxP).sum with
  | .error e => .error e
  | .ok (sizesF, _) =>
    if sizesF.length = sizes0.length then
      if sizesF.sum = size then .ok sizesF
      else .error "AssertionError: sum(sizes) == size"
    else .error "AssertionError: len(sizes) == len(files)"

/-! ## merge_small_files

Shard files on disk are modelled as `(index, byte size)` pairs, listed in
increasing index order (the source sorts `document_dir.iterdir()` by
`int(f.stem)`).  The `doc_id_to_file_i` dictionary and its reverse are
association lists; `raise`-able dictionary accesses (`KeyError`) use the
`Except` channel. -/

/-- Add doc id `k` to the entry of file `v` (`rev[v].append(k)` /
`rev[v] = [k]`). -/
def revAdd : List (Nat × List Nat) → Nat → Nat → List (Nat × List Nat)
  | [], v, k => [(v, [k])]
  | (v', l) :: rest, v, k =>
    if v' = v then (v', l ++ [k]) :: rest else (v', l) :: revAdd rest v k

/-- `reverse_doc_id_to_file_i`. -/
def reverse_doc_id_to_file_i (m : List (Nat × Nat)) : List (Nat × List Nat) :=
  m.foldl (fun rev kv => revAdd rev kv.2 kv.1) []

/-- Python dict assignment `d[k] = v`: overwrite in place or append. -/
def dictSet (d : List (Nat × Nat)) (k v : Nat) : List (Nat × Nat) :=
  if d.any (fun kv => kv.1 = k) then
    d.map (fun kv => if kv.1 = k then (k, v) else kv)
  else d ++ [(k, v)]

/-- `rev_rev_doc_id_to_file_i`. -/
def rev_rev_doc_id_to_file_i (rev : List (Nat × List Nat)) : List (Nat × Nat) :=
  rev.foldl (fun acc kv => kv.2.foldl (fun acc2 d => dictSet acc2 d kv.1) acc) []

/-- First value bound to key `k` in the reverse map (`rev[k]` read access). -/
def revGet : List (Nat × List Nat) → Nat → Option (List Nat)
  | [], _ => none
  | (v', l) :: rest, k => if v' = k then some l else revGet rest k

/-- `rev[k] += extra` (first entry with key `k` is extended). -/
def revAppendEntry : List (Nat × List Nat) → Nat → List Nat → List (Nat × List Nat)
  | [], _, _ => []
  | (v', l) :: rest, k, extra =>
    if v' = k then (v', l ++ extra) :: rest else (v', l) :: revAppendEntry rest k extra

/-- `del rev[k]` (first entry with key `k` is removed). -/
def revDel : List (Nat × List Nat) → Nat → List (Nat × List Nat)
  | [], _ => []
  | (v', l) :: rest, k => if v' = k then rest else (v', l) :: revDel rest k

/-- `rev[curr_file_i] += rev[file_i]; del rev[file_i]` with `KeyError` when a
key is missing. -/
def revMergeEntries (rev : List (Nat × List Nat)) (curr fi : Nat) :
    Except String (List (Nat × List Nat)) :=
  match revGet rev fi, revGet rev curr with
  | some dfi, some _ => .ok (revDel (revAppendEntry rev curr dfi) fi)
  | _, _ => .error "KeyError"

/-- The `for i in range(1, len(files))` loop of `merge_small_files`.  State:
current output file index and size, closed files (`done`), reverse map.
Returns the surviving files (with their final sizes) and the final reverse
map. -/
def mergeLoop (maxSize : Nat) :
    List (Nat × Nat) → Nat → Nat → List (Nat × Nat) → List (Nat × List Nat) →
    Except String (List (Nat × Nat) × List (Nat × List Nat))
  | [], currI, currSize, done, rev => .ok (done ++ [(currI, currSize)], rev)
  | (fi, fsize) :: rest, currI, currSize, done, rev =>
    if currSize ≥ maxSize then
      mergeLoop maxSize rest fi fsize (done ++ [(currI, currSize)]) rev
    else
      match revMergeEntries rev currI fi with
      | .error e => .error e
      | .ok rev' => mergeLoop maxSize rest currI (currSize + fsize) done rev'

/-- `max(stats)` (files are nonempty whenever this is used). -/
def maxSizeOf (files : List (Nat × Nat)) : Nat := (files.map Prod.snd).foldl max 0

/-- `merge_small_files(document_dir, doc_id_to_file_i)`.  Returns the surviving
shard files together with the updated `doc_id -> file_i` map.  An empty shard
directory raises (`files[0]` / `max` on an empty list). -/
def merge_small_files (files : List (Nat × Nat)) (m : List (Nat × Nat)) :
    Except String (List (Nat × Nat) × List (Nat × Nat)) :=
  match files with
  | [] => .error "IndexError: files[0]"
  | (f0, s0) :: rest =>
    let rev := reverse_doc_id_to_file_i m
    match mergeLoop (maxSizeOf files) rest f0 s0 [] rev with
    | .error e => .error e
    | .ok (surviving, revF) => .ok (surviving, rev_rev_doc_id_to_file_i revF)

/-- All doc ids stored in a reverse map. -/
def docsOf (rev : List (Nat × List Nat)) : List Nat := (rev.map Prod.snd).flatten

/-- Keys (file indices) of a reverse map. -/
def revKeys (rev : List (Nat × List Nat)) : List Nat := rev.map Prod.fst

/-! ## PreprocessUNWorker body-tag checks -/

/-- Leftmost occurrence split: `splitFirst sep s = some (pre, post)` iff `sep`
occurs in `s`, with `s = pre ++ sep ++ post` at the leftmost occurrence. -/
def splitFirst (sep : List Char) : List Char → Option (List Char × List Char)
  | [] => if sep = [] then some ([], []) else none
  | c :: cs =>
    if sep.isPrefixOf (c :: cs) then some ([], (c :: cs).drop sep.length)
    else
      match splitFirst sep cs with
      | none => none
      | some (a, b) => some (c :: a, b)

/-- Python `s.split(sep)`, fuel-based; `s.length + 1` units of fuel always
suffice for nonempty `sep` since each found separator consumes at least one
character. -/
def pySplitGo (sep : List Char) : Nat → List Char → List (List Char)
  | 0, s => [s]
  | fuel + 1, s =>
    match splitFirst sep s with
    | none => [s]
    | some (a, b) => a :: pySplitGo sep fuel b

/-- Python `s.split(sep)`. -/
def pySplit (sep s : List Char) : List (List Char) := pySplitGo sep (s.length + 1) s

/-- Fuel-based worker for `pyCount`. -/
def pyCountGo (sep : List Char) : Nat → List Char → Nat
  | 0, _ => 0
  | fuel + 1, s =>
    match splitFirst sep s with
    | none => 0
    | some (_, b) => 1 + pyCountGo sep fuel b

/-- Python `s.count(sep)`: number of non-overlapping occurrences of `sep`
in `s`, scanning left to right. -/
def pyCount (sep s : List Char) : Nat := pyCountGo sep (s.length + 1) s

def bodyOpen : List Char := ['<', 'b', 'o', 'd', 'y', '>']

def bodyClose : List Char := ['<', '/', 'b', 'o', 'd', 'y', '>']

/-- Everything after the leftmost occurrence of `sep` (empty when `sep` does
not occur). -/
def afterFirst (sep s : List Char) : List Char :=
  match splitFirst sep s with
  | none => []
  | some (_, b) => b

/-- The body-tag structure check opening `PreprocessUNWorker.__call__`:
`body_split_1 = text.split('<body>')` must have exactly two parts, then
`body_split_2 = body_split_1[1].split('</body>')` must have exactly two parts;
on success the body `body_split_2[0]` is returned. -/
def unBodyCheck (text : List Char) : Except String (List Char) :=
  let parts1 := pySplit bodyOpen text
  if parts1.length ≠ 2 then
    .error "ValueError: Wrong number of <body> tags were found in file"
  else
    let parts2 := pySplit bodyClose (parts1.getD 1 [])
    if parts2.length ≠ 2 then
      .error "ValueError: Wrong number of </body> tags were found in file"
    else .ok (parts2.getD 0 [])

/-! ## show_prog / Progress
(`nemo/collections/nlp/data/token_classification/punctuation_capitalization_dataset.py`)

A queue is modelled as the list of values it receives, in order.  `get()` on a
manager queue blocks, so the `except Empty` branch of `show_prog` is
unreachable; a queue that never receives its −1 sentinel blocks the consumer
forever, modelled as `none`. -/

/-- State of one tqdm bar owned by `show_prog`: current count `n`, declared
total, whether it has been finalized (`finished[i]`), and whether the
"terminated before progress bar reached 100 %" warning has been logged. -/
structure Bar where
  n : Int
  total : Int
  finished : Bool
  warned : Bool

/-- `v = qq.get(); while v != -1: to_add += v; v = qq.get(); to_add = -1`:
drain one queue until the −1 sentinel, returning the rest of the queue.  The
positive deltas accumulated in `to_add` are discarded by the final
`to_add = -1` assignment in the source, so they are not returned.  `none`
models a blocking `get()` on a queue that never receives −1. -/
def drainUntilSentinel : List Int → Option (List Int)
  | [] => none
  | v :: rest => if v = -1 then some rest else drainUntilSentinel rest

/-- Processing of queue `i` in one iteration of the `while True` loop of
`show_prog`: drain until −1 (so `to_add < 0`), log the below-total warning if
`prog[i].n < total_num_lines[i]`, set `finished[i]` and close the bar, apply
`prog[i].n += to_add`, and re-check `prog[i].n >= total_num_lines[i]`. -/
def processBar (q : List Int) (bar : Bar) : Option (List Int × Bar) :=
  match drainUntilSentinel q with
  | none => none
  | some rest =>
    let toAdd : Int := -1
    let warned1 : Bool := bar.warned || decide (bar.n < bar.total)
    let bar1 : Bar := { bar with finished := true, warned := warned1 }
    let bar2 : Bar := { bar1 with n := bar1.n + toAdd }
    let bar3 : Bar := if bar2.n ≥ bar2.total then { bar2 with finished := true } else bar2
    some (rest, bar3)

/-- One pass of `for i, qq in enumerate(q)` over all queue/bar pairs.  A
blocking queue blocks the whole consumer (`none`). -/
def processRound : List (List Int) → List Bar → Option (List (List Int) × List Bar)
  | [], [] => some ([], [])
  | q :: qs, bar :: bars =>
    (match processBar q bar with
    | none => none
    | some (q', bar') =>
      match processRound qs bars with
      | none => none
      | some (qs', bars') => some (q' :: qs', bar' :: bars'))
  | _, _ => none

/-- `show_prog(q, total_num_lines, descriptions, units)`.  Each bar starts at
`n = 0`; the consumer loops until `all(finished)`.  Every successful round
finalizes every bar (`processRound_finished` below), so the `while True` loop
performs exactly one round before `all(finished)` breaks it; the `else` branch
below is therefore unreachable and stands for the (never executed) further
rounds. -/
def show_prog (qs : List (List Int)) (totals : List Int) : Option (List Bar) :=
  match processRound qs
      (totals.map fun t => { n := 0, total := t, finished := false, warned := false }) with
  | none => none
  | some (_, bars1) =>
    if bars1.all (fun b => b.finished) then some bars1
    else none

/-! ## Word matching: count_words, cut_segment, strip_segment, cut_and_save_one_pass

These functions are driven by
`small.WORD_WITH_PRECEDING_AND_FOLLOWING_PUNCTUATION` and the word-character
class `WC`, imported from `prepare_small_data_for_punctuation_capitalization_task`,
which is not part of this repository snapshot.  Modelled from the spec:
"'word' is defined uniformly via a single regex matching a token with its
immediately preceding/following punctuation"; the word-character class is an
abstract predicate `wc`, and the regex's matches tile the string from the left:
each match is a maximal run of word characters together with the non-word
characters immediately after it (and, for the first match only, the non-word
characters before it).  `tokenize wc s` is the list of these matches in
order (`finditer` / `findall`). -/

/-- Fuel-based worker for `tokenize`: one unit of fuel per match; each match
consumes at least one character, so `s.length + 1` units always suffice
(`tokenizeGo_congr` below removes the fuel). -/
def tokenizeGo (wc : Char → Bool) : Nat → List Char → List (List Char)
  | 0, _ => []
  | fuel + 1, s =>
    match s.dropWhile (fun c => !wc c) with
    | [] => []
    | c :: cs =>
      (s.takeWhile (fun c => !wc c) ++ (c :: cs).takeWhile wc
          ++ ((c :: cs).dropWhile wc).takeWhile (fun c => !wc c))
        :: tokenizeGo wc fuel (((c :: cs).dropWhile wc).dropWhile (fun c => !wc c))

/-- The match list of the modelled word regex over `s`: each match is the
(possibly empty, for the first match) run of non-word characters, then a
maximal nonempty run of word characters, then the run of non-word characters
up to the next word character. -/
def tokenize (wc : Char → Bool) (s : List Char) : List (List Char) :=
  tokenizeGo wc (s.length + 1) s

/-- `count_words(text)`: the number of matches of the word regex
(`len(WORD_WITH_PRECEDING_AND_FOLLOWING_PUNCTUATION.findall(text))`). -/
def count_words (wc : Char → Bool) (text : List Char) : Nat :=
  (tokenize wc text).length

/-- `cut_segment(text, shift, num_words_in_segment)`: concatenates
`m.group(0)` for the matches with `shift <= word_i < num_words_in_segment + shift`. -/
def cut_segment (wc : Char → Bool) (text : List Char) (shift k : Nat) : List Char :=
  (((tokenize wc text).drop shift).take k).flatten

/-- Python `s.rstrip(chars)`. -/
def pyRstrip (s : List Char) (chars : List Char) : List Char :=
  (s.reverse.dropWhile (fun c => chars.contains c)).reverse

/-- Python `s.endswith(suffix)`. -/
def endsWithL (s suffix : List Char) : Bool := suffix.isSuffixOf s

/-- `strip_segment(segment)`: strip trailing hyphens, a dangling opening
quote/parenthesis, trailing spaces, then delete the leading run of non-word
characters (`FORBIDDEN_PUNCTUATION_IN_THE_START_OF_SEGMENT = ^[^WC]+`,
anchored, so `re.sub` replaces just that leading run). -/
def strip_segment (wc : Char → Bool) (s : List Char) : List Char :=
  let s1 := pyRstrip s ['-']
  let s2 := if endsWithL s1 [' ', '"'] || endsWithL s1 ['('] then pyRstrip s1 ['"', '('] else s1
  let s3 := pyRstrip s2 [' ']
  s3.dropWhile (fun c => !wc c)

/-- The match-grouping loop of `cut_and_save_one_pass`: walk the matches (the
first `shift` already dropped), accumulate the current segment's matches in
`cur` (reversed), emit `strip_segment` of the concatenated group when its size
reaches `permutation[p_i]`, cycle `p_i` and re-sample the permutation
(`perms (sampleIdx+1)`) on wrap-around, and emit the final partial group.
Since the matches tile the text contiguously, the source's slice
`text[start_match.span()[0] : m.span()[1]]` is exactly the concatenation of
the group's matches. -/
def cutLoop (wc : Char → Bool) (perms : Nat → List Nat) :
    List (List Char) → Nat → Nat → List (List Char) → List (List Char)
  | [], _, _, cur =>
    if cur.isEmpty then [] else [strip_segment wc cur.reverse.flatten]
  | t :: rest, sampleIdx, pIdx, cur =>
    if cur.length + 1 = (perms sampleIdx).getD pIdx 0 then
      if pIdx + 1 = (perms sampleIdx).length then
        strip_segment wc (t :: cur).reverse.flatten :: cutLoop wc perms rest (sampleIdx + 1) 0 []
      else
        strip_segment wc (t :: cur).reverse.flatten :: cutLoop wc perms rest sampleIdx (pIdx + 1) []
    else
      cutLoop wc perms rest sampleIdx pIdx (t :: cur)

/-- `cut_and_save_one_pass(text, out_f, progress_queue, num_words_in_segments)`,
returning the list of lines written to `out_f`.  `perms k` is the `k`-th
`random.sample(num_words_in_segments, len(num_words_in_segments))` draw and
`shift` the `random.randint(0, max(num_words_in_segments) // 2)` draw
(`max` of an empty list raises). -/
def cut_and_save_one_pass (wc : Char → Bool) (text : List Char)
    (numWordsInSegments : List Nat) (perms : Nat → List Nat) (shift : Nat) :
    Except String (List (List Char)) :=
  if numWordsInSegments.isEmpty then .error "ValueError: max() arg is an empty sequence"
  else .ok (cutLoop wc perms ((tokenize wc text).drop shift) 0 0 [])

/-! ## clean_small_dataset, preprocess_tatoeba, preprocess_europarl -/

/-- A document record (the `docs[doc_id]` dictionaries). -/
structure Doc where
  text : List Char
  title : List Char
  source : String
  start_line : Nat
  end_line : Nat

/-- The cleaning collaborators used by `clean_small_dataset`, imported from
the `small`/`big` sibling modules which are not part of this repository
snapshot.  Modelled from the spec: each is an arbitrary text transform;
`removeUntok` threads the shared tokenizability caches (abstract state `σ`)
and reports removed-line counts, `suspicious` reports removed suspicious
lines.  Everything proved below holds for every choice of these functions. -/
structure CleanFns (σ : Type) where
  removeUntok : σ → List Char → List Char × σ × Nat
  brokenParen : List Char → List Char
  spaceDup : List Char → List Char
  suspicious : List Char → List Char × Nat
  normalizePunct : List Char → List Char
  newLineDup : List Char → List Char

/-- The per-document body of the `clean_small_dataset` loop:
untokenizable-character removal, `BROKEN_PARENTHESES_WITH_CONTENT` removal,
`SPACE_DUP` collapse, suspicious-line removal, punctuation normalization,
`NEW_LINE_DUP` collapse. -/
def cleanDoc {σ : Type} (fns : CleanFns σ) (st : σ) (text : List Char) :
    List Char × σ :=
  match fns.removeUntok st text with
  | (t1, st1, _) =>
    let t2 := fns.brokenParen t1
    let t3 := fns.spaceDup t2
    match fns.suspicious t3 with
    | (t4, _) =>
      let t5 := fns.normalizePunct t4
      let t6 := fns.newLineDup t5
      (t6, st1)

/-- `clean_small_dataset(docs, tokenizer, lang, file_path, corpus_type,
normalize_and_check_quotes_and_parentheses)`: clean every document in
insertion order, threading the tokenizability caches, and delete documents
whose text became empty (`if not docs[doc_id]['text']: del docs[doc_id]`). -/
def clean_small_dataset {σ : Type} (fns : CleanFns σ) (st : σ) :
    List (Nat × Doc) → List (Nat × Doc)
  | [] => []
  | (i, d) :: rest =>
    match cleanDoc fns st d.text with
    | (t, st') =>
      if t.isEmpty then clean_small_dataset fns st' rest
      else (i, { d with text := t }) :: clean_small_dataset fns st' rest

/-- Python `str.split()` — split on runs of whitespace. -/
def pySplitWsAux : List Char → List Char → List (List Char)
  | cur, [] => if cur.isEmpty then [] else [cur.reverse]
  | cur, c :: cs =>
    if c.isWhitespace then
      (if cur.isEmpty then pySplitWsAux [] cs else cur.reverse :: pySplitWsAux [] cs)
    else pySplitWsAux (c :: cur) cs

/-- Python `str.split()`. -/
def pySplitWs (s : List Char) : List (List Char) := pySplitWsAux [] s

/-- The text assembled by `preprocess_tatoeba`: for each line of the input
file, drop the first two whitespace-separated fields and join the rest with
single spaces; join the lines with newlines. -/
def tatoebaText (lines : List (List Char)) : List Char :=
  List.intercalate ['\n'] (lines.map fun l => List.intercalate [' '] ((pySplitWs l).drop 2))

/-- `preprocess_tatoeba(file_path, document_dir, doc_id, file_id)`: builds a
single document and unconditionally passes it to `write_docs_to_file`
(first component); returns the `{doc_id: file_id}` map (second component).
There is no emptiness check anywhere in the function. -/
def preprocess_tatoeba (lines : List (List Char)) (src : String) (doc_id file_id : Nat) :
    (Nat × Doc) × (Nat × Nat) :=
  ((doc_id, { text := tatoebaText lines, title := "tatoeba".toList, source := src,
              start_line := 0, end_line := lines.length }),
   (doc_id, file_id))

/-- Python `str.strip()` (no arguments): trim whitespace from both ends. -/
def pyStrip (s : List Char) : List Char :=
  ((s.dropWhile Char.isWhitespace).reverse.dropWhile Char.isWhitespace).reverse

/-- `"europarl_" + m.group(2).strip()` followed by `title.replace('"', "'")`. -/
def europarlTitle (sess : List Char) : List Char :=
  ("europarl_".toList ++ pyStrip sess).map fun c => if c = '"' then '\'' else c

/-- `doc_id in docs`. -/
def docsContains (docs : List (Nat × Doc)) (i : Nat) : Bool :=
  docs.any fun p => p.1 = i

/-- `docs[doc_id]['end_line'] = e`. -/
def docsSetEndLine (docs : List (Nat × Doc)) (i e : Nat) : List (Nat × Doc) :=
  docs.map fun p => if p.1 = i then (p.1, { p.2 with end_line := e }) else p

/-- `docs[doc_id]['text'] += t`. -/
def docsAppendText (docs : List (Nat × Doc)) (i : Nat) (t : List Char) :
    List (Nat × Doc) :=
  docs.map fun p => if p.1 = i then (p.1, { p.2 with text := p.2.text ++ t }) else p

/-- State of the `preprocess_europarl` line loop. -/
structure EpState where
  docs : List (Nat × Doc)
  docId : Nat
  lastTitle : Option (List Char)

/-- One iteration of the `preprocess_europarl` line loop (lines 485-505).
`parse` models the `small.EUROPARL_LINE` regex match with its two groups
(raising `ValueError` when it does not match), `keep` models the quality
filter `text and not too_many_digits(text) and WORD_... .search(text)`, and
`lstrip` models `small.EUROPARL_LSTRIP.sub('', text)`; all three live in the
`small` module, which is not part of this snapshot, and are modelled from the
spec as abstract parameters. -/
def preprocess_europarl_step (parse : List Char → Option (List Char × List Char))
    (keep : List Char → Bool) (lstrip : List Char → List Char)
    (src : String) (st : EpState) (i : Nat) (line : List Char) :
    Except String EpState :=
  match parse line with
  | none => .error "ValueError: Could not match EUROPARL line"
  | some (g1, g2) =>
    let text := pyStrip g1
    if keep text then
      let text := lstrip text
      let title := europarlTitle g2
      let st1 : EpState :=
        match st.lastTitle with
        | none => st
        | some lt =>
          if lt ≠ title then
            { st with docs := docsSetEndLine st.docs st.docId i, docId := st.docId + 1 }
          else st
      let st2 : EpState :=
        if docsContains st1.docs st1.docId then
          { st1 with docs := docsAppendText st1.docs st1.docId (pyStrip text ++ ['\n']) }
        else
          { st1 with docs := st1.docs ++ [(st1.docId,
              { text := pyStrip text ++ ['\n'], title := title, source := src,
                start_line := i, end_line := 0 })] }
      .ok { st2 with lastTitle := some title }
    else .ok st

/-- The `for i, line in enumerate(text_lines)` loop. -/
def preprocess_europarl_loop (parse : List Char → Option (List Char × List Char))
    (keep : List Char → Bool) (lstrip : List Char → List Char) (src : String) :
    Nat → EpState → List (List Char) → Except String EpState
  | _, st, [] => .ok st
  | i, st, line :: rest =>
    match preprocess_europarl_step parse keep lstrip src st i line with
    | .error e => .error e
    | .ok st' => preprocess_europarl_loop parse keep lstrip src (i + 1) st' rest

/-- `preprocess_europarl(file_path, document_dir, lang, start_doc_id,
start_file_id, tokenizer)`.  `lines` is the file's content after
`SPACING_CHARACTERS_TO_REPLACE` substitution and `splitlines()` (modelled as
the given line list).  Returns the cleaned documents that are written to the
shard file, together with the returned `{doc_id: start_file_id}` map. -/
def preprocess_europarl {σ : Type} (parse : List Char → Option (List Char × List Char))
    (keep : List Char → Bool) (lstrip : List Char → List Char) (src : String)
    (fns : CleanFns σ) (st0 : σ) (lines : List (List Char))
    (start_doc_id start_file_id : Nat) :
    Except String (List (Nat × Doc) × List (Nat × Nat)) :=
  match preprocess_europarl_loop parse keep lstrip src 0
      { docs := [], docId := start_doc_id, lastTitle := none } lines with
  | .error e => .error e
  | .ok st =>
    let docs :=
      if st.docs.isEmpty then st.docs
      else docsSetEndLine st.docs st.docId lines.length
    let cleaned := clean_small_dataset fns st0 docs
    .ok (cleaned, cleaned.map fun p => (p.1, start_file_id))

/-- Identity cleaning collaborators (used to instantiate theorems about
`clean_small_dataset` on concrete inputs). -/
def idCleanFns : CleanFns Unit :=
  { removeUntok := fun st t => (t, st, 0), brokenParen := id, spaceDup := id,
    suspicious := fun t => (t, 0), normalizePunct := id, newLineDup := id }

/-- A concrete nonempty document (used to instantiate theorems). -/
def sampleDoc : Doc :=
  { text := "x".toList, title := [], source := "", start_line := 0, end_line := 0 }

/-- The fresh document inserted by the `preprocess_europarl` loop for a line
with groups `g1`, `g2` at line index `i` (`end_line` is filled in later). -/
def mkEpDoc (lstrip : List Char → List Char) (g1 g2 : List Char) (src : String)
    (i : Nat) : Doc :=
  { text := pyStrip (lstrip (pyStrip g1)) ++ ['\n'], title := europarlTitle g2,
    source := src, start_line := i, end_line := 0 }

/-- The text of a two-line europarl document: each line is stripped,
`EUROPARL_LSTRIP`-ed, stripped again and newline-terminated. -/
def epText (lstrip : List Char → List Char) (a b : List Char) : List Char :=
  (pyStrip (lstrip (pyStrip a)) ++ ['\n']) ++ (pyStrip (lstrip (pyStrip b)) ++ ['\n'])

/-- Shape of a regex match: an all-non-word run (nonempty only for the first
match of a string), a nonempty all-word run, an all-non-word run. -/
def TokShape (wc : Char → Bool) (t : List Char) : Prop :=
  ∃ pre run post, t = pre ++ run ++ post ∧ (∀ c ∈ pre, wc c = false) ∧
    run ≠ [] ∧ (∀ c ∈ run, wc c = true) ∧ (∀ c ∈ post, wc c = false)

/-- Shape of a non-final match: additionally its trailing non-word run is
nonempty, because the following match starts with a word character. -/
def TokShapeMid (wc : Char → Bool) (t : List Char) : Prop :=
  ∃ pre run post, t = pre ++ run ++ post ∧ (∀ c ∈ pre, wc c = false) ∧
    run ≠ [] ∧ (∀ c ∈ run, wc c = true) ∧ (∀ c ∈ post, wc c = false) ∧ post ≠ []

/-- A match that begins with a word character (every match after the first). -/
def HeadW (wc : Char → Bool) (t : List Char) : Prop :=
  ∃ c u, t = c :: u ∧ wc c = true

/-- The chain structure of a regex match list: every non-final match ends in a
non-word character, every match after the first (`first = false` for the whole
list) begins with a word character. -/
inductive TokChain (wc : Char → Bool) : Bool → List (List Char) → Prop
  | nil : ∀ first, TokChain wc first []
  | last : ∀ first t, TokShape wc t → (first = false → HeadW wc t) →
      TokChain wc first [t]
  | cons : ∀ first t ts, TokShapeMid wc t → (first = false → HeadW wc t) →
      ts ≠ [] → TokChain wc false ts → TokChain wc first (t :: ts)

/-! ### `get_borders_with_documents_intact` (lines 169-222)

The file is embedded as its character content `content : List Char` together
with an explicit read position; `f.read(n)` returns the next
`min n (length - pos)` characters, `f.readline()` reads up to and including
the next newline, and byte counts are UTF-8 lengths (`Char.utf8Size`). -/

/-- `len(s.encode('utf-8'))`. -/
def utf8Len (l : List Char) : Nat := (l.map Char.utf8Size).sum

/-- `f.read(n)` at position `pos` (the new position is `pos` plus the length
of the returned buffer). -/
def fdRead (content : List Char) (pos n : Nat) : List Char :=
  (content.drop pos).take n

/-- The longest prefix up to and including the first newline. -/
def takeLine : List Char → List Char
  | [] => []
  | c :: cs => if c = '\n' then [c] else c :: takeLine cs

/-- `f.readline()` at position `pos`. -/
def fdReadline (content : List Char) (pos : Nat) : List Char :=
  takeLine (content.drop pos)

/-- `s.index(pat)` / `pat in s`: index of the first occurrence of the
substring `pat`, if any. -/
def findSub (pat : List Char) : List Char → Option Nat
  | [] => if pat.isEmpty then some 0 else none
  | c :: cs =>
    if pat.isPrefixOf (c :: cs) then some 0 else (findSub pat cs).map (· + 1)

/-- The `'<page'` document marker. -/
def pageMarker : List Char := '<' :: 'p' :: 'a' :: 'g' :: 'e' :: []

/-- `BUFFER_SIZE = 2 ** 24` (line 72). -/
def BUFFER_SIZE : Nat := 2 ^ 24

/-- The `while buffer and n > characters_read` loop of
`move_by_n_characters_in_file` (lines 169-177), fueled; each productive
iteration reads at least one character, so `n.toNat + 1` units of fuel are
enough.  Arguments after the fuel: position, `characters_read`,
`bytes_read`; the result is `(characters_read, bytes_read, position)`. -/
def moveGo (content : List Char) (bufferSize : Nat) (n : Int) :
    Nat → Nat → Nat → Nat → Nat × Nat × Nat
  | 0, pos, cr, br => (cr, br, pos)
  | fuel + 1, pos, cr, br =>
    if n ≤ (cr : Int) then (cr, br, pos)
    else
      let buf := fdRead content pos (min bufferSize (n - cr).toNat)
      if buf.isEmpty then (cr + buf.length, br + utf8Len buf, pos + buf.length)
      else moveGo content bufferSize n fuel (pos + buf.length) (cr + buf.length)
        (br + utf8Len buf)

/-- `move_by_n_characters_in_file(fd, n, buffer_size)`: read `n` characters
(or up to EOF), returning `(characters_read, bytes_read)` and the new file
position.  `n` is an `Int`: the caller computes it as a difference that can
be negative, in which case the loop body never runs. -/
def move_by_n_characters_in_file (content : List Char) (pos : Nat) (n : Int)
    (bufferSize : Nat) : Nat × Nat × Nat :=
  moveGo content bufferSize n (n.toNat + 1) pos 0 0

/-- Result of the `while line:` page-scan loop of
`get_borders_with_documents_intact` (lines 207-217): final position,
`characters_in_part`, `bytes_read`, `total_characters_read`, and the new
`remainder` if a `'<page'` marker was found (`success`). -/
structure ScanResult where
  pos : Nat
  cip : Nat
  br : Nat
  total : Nat
  found : Option (List Char)

/-- The `while line:` page-scan loop, fueled (each iteration that recurses
reads the next line, so `content.length + 2` units of fuel are enough).  At
entry `line` has already been read (the position is past it) and counted
into `total`. -/
def scanGo (content : List Char) :
    Nat → Nat → Nat → Nat → Nat → List Char → ScanResult
  | 0, pos, cip, br, total, _ => ⟨pos, cip, br, total, none⟩
  | fuel + 1, pos, cip, br, total, line =>
    if line.isEmpty then ⟨pos, cip, br, total, none⟩
    else
      match findSub pageMarker line with
      | some idx =>
        ⟨pos, cip + (line.take idx).length, br + utf8Len (line.take idx), total,
          some (line.drop idx)⟩
      | none =>
        let next := fdReadline content (pos)
        scanGo content fuel (pos + next.length) (cip + line.length)
          (br + utf8Len line) (total + next.length) next

/-- Which exit the body of the `for i in range(num_parts)` loop took:
`shortRead` (`characters_in_part < read_size`, EOF during the blind read),
`found` (a `'<page'` marker ended the part), or `eofScan` (the page scan ran
out of lines without finding a marker). -/
inductive Branch
  | shortRead
  | found
  | eofScan
deriving DecidableEq

/-- State of the `for i in range(num_parts)` loop of
`get_borders_with_documents_intact`: file position, `last_byte_border`,
`total_characters_read`, `remainder`, the accumulated `byte_borders` and
`num_characters_in_part`, the loop index `i`, plus the per-part exit
branches (pure instrumentation: no other field depends on it). -/
structure GBState where
  pos : Nat
  lastByteBorder : Nat
  totalCharactersRead : Nat
  remainder : List Char
  byteBorders : List (Nat × Nat)
  numCharactersInPart : List Nat
  branches : List Branch
  i : Nat

/-- The body of the `for i in range(num_parts)` loop (lines 189-221). -/
def processPart (content : List Char) (partSize : Nat) (st : GBState) :
    GBState :=
  let readSize : Int := (partSize * (st.i + 1) : Int) - st.totalCharactersRead
  match move_by_n_characters_in_file content st.pos readSize BUFFER_SIZE with
  | (chars0, bytes0, pos1) =>
    let cip := chars0 + st.remainder.length
    let br := bytes0 + utf8Len st.remainder
    let total1 := st.totalCharactersRead + cip
    if (cip : Int) < readSize then
      ⟨pos1, st.lastByteBorder, total1, st.remainder,
        st.byteBorders ++ [(st.lastByteBorder, st.lastByteBorder + br)],
        st.numCharactersInPart ++ [cip],
        st.branches ++ [Branch.shortRead], st.i + 1⟩
    else
      let line := fdReadline content pos1
      match scanGo content (content.length + 2) (pos1 + line.length) cip br
          (total1 + line.length) line with
      | ⟨pos3, cip3, br3, total3, some rem⟩ =>
        ⟨pos3, st.lastByteBorder + br3, total3, rem,
          st.byteBorders ++ [(st.lastByteBorder, st.lastByteBorder + br3)],
          st.numCharactersInPart ++ [cip3],
          st.branches ++ [Branch.found], st.i + 1⟩
      | ⟨pos3, cip3, br3, total3, none⟩ =>
        ⟨pos3, st.lastByteBorder, total3, st.remainder,
          st.byteBorders ++ [(st.lastByteBorder, st.lastByteBorder + br3)],
          st.numCharactersInPart ++ [cip3],
          st.branches ++ [Branch.eofScan], st.i + 1⟩

/-- The `for i in range(num_parts)` loop, by recursion on the number of
remaining parts (the current index is `st.i`). -/
def getBordersLoop (content : List Char) (partSize : Nat) :
    Nat → GBState → GBState
  | 0, st => st
  | rem + 1, st => getBordersLoop content partSize rem
      (processPart content partSize st)

/-- The final loop state of `get_borders_with_documents_intact(file_path,
num_parts)`; `count_characters_in_file` is the character count of the
content, and `part_size = length // num_parts`. -/
def getBordersFinal (content : List Char) (numParts : Nat) : GBState :=
  getBordersLoop content (content.length / numParts) numParts
    ⟨0, 0, 0, [], [], [], [], 0⟩

/-- `get_borders_with_documents_intact(file_path, num_parts)` (lines
180-222): the returned `(byte_borders, num_characters_in_part)`. -/
def get_borders_with_documents_intact (content : List Char) (numParts : Nat) :
    List (Nat × Nat) × List Nat :=
  ((getBordersFinal content numParts).byteBorders,
    (getBordersFinal content numParts).numCharactersInPart)

/-- The per-part exit branches of the same run (instrumentation). -/
def get_borders_branches (content : List Char) (numParts : Nat) :
    List Branch :=
  (getBordersFinal content numParts).branches

/-- The characters of `content` from position `a` (inclusive) to position
`b` (exclusive). -/
def extractC (content : List Char) (a b : Nat) : List Char :=
  (content.take b).drop a

/-- The byte offset of character position `p`: the UTF-8 length of the
prefix before it. -/
def byteAt (content : List Char) (p : Nat) : Nat :=
  utf8Len (content.take p)

/-- A `'<page'` document marker occurs at character position `q`. -/
def markerAt (content : List Char) (q : Nat) : Prop :=
  pageMarker.isPrefixOf (content.drop q) = true

/-- Position `p` is the end of a line: the end of the file, or preceded by a
newline. -/
def lineEnd (content : List Char) (p : Nat) : Prop :=
  p = content.length ∨ content.getD (p - 1) ' ' = '\n'

/-- A byte offset the border loop can emit: the byte offset of a character
position that is the start of the file, the end of the file, the start of a
line, or the start of a `'<page'` marker.  No such offset lies strictly
inside a marker occurrence. -/
def okBoundary (content : List Char) (b : Nat) : Prop :=
  ∃ p, p ≤ content.length ∧ b = byteAt content p ∧
    (p = 0 ∨ p = content.length ∨ content.getD (p - 1) ' ' = '\n' ∨
      markerAt content p)

/-- The positional invariant of the border loop: the position never passes
EOF; every emitted border coordinate is an `okBoundary`; and the
`remainder` is the slice `[r0, e0)` of the content for a start `r0` that is
0 or a marker start with `last_byte_border` its byte offset, an end `e0`
that is 0 or a line end, and either `e0` is the current position (the
remainder was just produced by the found branch) or the position is at EOF
(the remainder is stale after an EOF exit, which never resets it). -/
def GBPos (content : List Char) (st : GBState) : Prop :=
  st.pos ≤ content.length ∧
  (∀ p ∈ st.byteBorders, okBoundary content p.1 ∧ okBoundary content p.2) ∧
  ∃ r0 e0, r0 ≤ e0 ∧ e0 ≤ content.length ∧
    st.remainder = extractC content r0 e0 ∧
    st.remainder.length = e0 - r0 ∧
    st.lastByteBorder = byteAt content r0 ∧
    (r0 = 0 ∨ markerAt content r0) ∧
    (e0 = 0 ∨ lineEnd content e0) ∧
    (e0 = st.pos ∨ st.pos = content.length)

/-- The bookkeeping invariant of the border loop: the three output lists run
in step; the first border starts at byte 0 (`last_byte_border` is 0 until
the first border is emitted); `last_byte_border` equals the last border's
end whenever the last part exited through the `'<page'`-found branch; and
every border following a found-branch border starts at its end. -/
def GBInv (st : GBState) : Prop :=
  st.byteBorders.length = st.branches.length ∧
  st.numCharactersInPart.length = st.byteBorders.length ∧
  (∀ b, st.byteBorders.head? = some b → b.1 = 0) ∧
  (st.byteBorders = [] → st.lastByteBorder = 0) ∧
  (∀ b β, st.byteBorders.getLast? = some b → st.branches.getLast? = some β →
    β = Branch.found → st.lastByteBorder = b.2) ∧
  (∀ j, j + 1 < st.byteBorders.length →
    st.branches.getD j Branch.eofScan = Branch.found →
    (st.byteBorders.getD (j + 1) (0, 0)).1 = (st.byteBorders.getD j (0, 0)).2)

end NeMoPrep

namespace NeMoPrep

/-! ## Theorems -/

theorem getD_set (l : List Nat) (j i v : Nat) :
    (l.set j v).getD i 0 = if j = i ∧ j < l.length then v else l.getD i 0 := by
  induction l generalizing i j with
  | nil => simp
  | cons a t ih =>
    cases j with
    | zero =>
      cases i with
      | zero => simp
      | succ i => simp
    | succ j =>
      cases i with
      | zero => simp
      | succ i =>
        simp only [List.set, List.getD_cons_succ, List.length_cons, ih]
        by_cases h : j = i ∧ j < t.length
        · rw [if_pos h, if_pos ⟨by omega, by omega⟩]
        · rw [if_neg h, if_neg (by omega)]

theorem sum_set (l : List Nat) (j v : Nat) (h : j < l.length) :
    (l.set j v).sum + l.getD j 0 = l.sum + v := by
  induction l generalizing j with
  | nil => simp at h
  | cons a t ih =>
    cases j with
    | zero => simp [List.sum_cons]; omega
    | succ j =>
      simp only [List.set, List.sum_cons, List.getD_cons_succ]
      have := ih j (by simpa using h)
      omega

theorem clampToMax_getD_le (sizes0 maxP : List Nat) (i : Nat) :
    (clampToMax sizes0 maxP).getD i 0 ≤ maxP.getD i 0 := by
  induction sizes0 generalizing maxP i with
  | nil => simp [clampToMax]
  | cons a t ih =>
    cases maxP with
    | nil => simp [clampToMax]
    | cons b m =>
      cases i with
      | zero => simp [clampToMax]
      | succ i => simpa [clampToMax] using ih m i

theorem clampToMax_length (sizes0 maxP : List Nat) (h : sizes0.length = maxP.length) :
    (clampToMax sizes0 maxP).length = maxP.length := by
  simp [clampToMax, h]

theorem sum_le_of_pointwise_le (l m : List Nat) (hlen : l.length = m.length)
    (h : ∀ i, l.getD i 0 ≤ m.getD i 0) : l.sum ≤ m.sum := by
  induction l generalizing m with
  | nil => simp
  | cons a t ih =>
    cases m with
    | nil => simp at hlen
    | cons b u =>
      have h0 := h 0
      simp only [List.getD_cons_zero] at h0
      have ht : t.sum ≤ u.sum := by
        refine ih u (by simpa using hlen) fun i => ?_
        simpa using h (i + 1)
      simp only [List.sum_cons]
      omega

theorem decreaseLoop_bounds (size : Nat) (perm : List Nat) (maxP : List Nat) :
    ∀ (sizes : List Nat) (sum_ : Nat), (∀ i, sizes.getD i 0 ≤ maxP.getD i 0) →
      ∀ i, (decreaseLoop size perm sizes sum_).1.getD i 0 ≤ maxP.getD i 0 := by
  induction perm with
  | nil => intro sizes sum_ h i; simpa [decreaseLoop] using h i
  | cons j rest ih =>
    intro sizes sum_ h i
    simp only [decreaseLoop]
    split
    · split
      · refine ih _ _ (fun k => ?_) i
        rw [getD_set]
        split
        · rename_i hc; calc sizes.getD j 0 - 1 ≤ sizes.getD j 0 := Nat.sub_le _ _
            _ ≤ maxP.getD j 0 := h j
            _ = maxP.getD k 0 := by rw [hc.1]
        · exact h k
      · exact ih _ _ h i
    · exact h i

theorem increasePass_spec (maxP : List Nat) (size : Nat) (perm : List Nat) :
    ∀ (sizes : List Nat) (sum_ : Nat) (w : Bool),
      sizes.length = maxP.length → (∀ i, sizes.getD i 0 ≤ maxP.getD i 0) →
      sum_ = sizes.sum →
      (increasePass maxP size perm sizes sum_ w).1.length = maxP.length ∧
      (∀ i, (increasePass maxP size perm sizes sum_ w).1.getD i 0 ≤ maxP.getD i 0) ∧
      (increasePass maxP size perm sizes sum_ w).2.1 =
        (increasePass maxP size perm sizes sum_ w).1.sum ∧
      ((increasePass maxP size perm sizes sum_ w).2.2.2 = true →
        (increasePass maxP size perm sizes sum_ w).2.1 ≥ size) := by
  induction perm with
  | nil =>
    intro sizes sum_ w hlen hb hs
    refine ⟨hlen, hb, hs, ?_⟩
    simp [increasePass]
  | cons j rest ih =>
    intro sizes sum_ w hlen hb hs
    simp only [increasePass]
    split
    · rename_i hj
      have hjlen : j < sizes.length := by
        by_contra hge
        have : sizes.getD j 0 = 0 := by
          rw [List.getD_eq_default]; omega
        have : maxP.getD j 0 = 0 := by
          rw [List.getD_eq_default]; rw [← hlen]; omega
        omega
      have hset_len : (sizes.set j (sizes.getD j 0 + 1)).length = maxP.length := by
        simpa using hlen
      have hset_b : ∀ i, (sizes.set j (sizes.getD j 0 + 1)).getD i 0 ≤ maxP.getD i 0 := by
        intro i
        rw [getD_set]
        split
        · rename_i hc
          calc sizes.getD j 0 + 1 ≤ maxP.getD j 0 := hj
            _ = maxP.getD i 0 := by rw [hc.1]
        · exact hb i
      have hset_s : sum_ + 1 = (sizes.set j (sizes.getD j 0 + 1)).sum := by
        have := sum_set sizes j (sizes.getD j 0 + 1) hjlen
        omega
      split
      · rename_i hge
        exact ⟨hset_len, hset_b, hset_s, fun _ => hge⟩
      · exact ih _ _ _ hset_len hset_b hset_s
    · exact ih _ _ _ hlen hb hs

theorem increaseLoop_ok_spec (maxP : List Nat) (size : Nat) (perm : List Nat) :
    ∀ (fuel : Nat) (sizes : List Nat) (sum_ : Nat),
      sizes.length = maxP.length → (∀ i, sizes.getD i 0 ≤ maxP.getD i 0) →
      sum_ = sizes.sum →
      ∀ l s, increaseLoop maxP size perm fuel sizes sum_ = .ok (l, s) →
        (∀ i, l.getD i 0 ≤ maxP.getD i 0) := by
  intro fuel
  induction fuel with
  | zero => intro sizes sum_ _ _ _ l s h; simp [increaseLoop] at h
  | succ fuel ih =>
    intro sizes sum_ hlen hb hs l s h
    simp only [increaseLoop] at h
    split at h
    · have spec := increasePass_spec maxP size perm sizes sum_ false hlen hb hs
      split at h
      · split at h
        · rw [Except.ok.injEq, Prod.mk.injEq] at h
          intro i
          rw [← h.1]
          exact spec.2.1 i
        · simp at h
      · split at h
        · exact ih _ _ spec.1 spec.2.1 spec.2.2.1 l s h
        · simp at h
    · rw [Except.ok.injEq, Prod.mk.injEq] at h
      intro i; rw [← h.1]; exact hb i

theorem increaseLoop_error_of_infeasible (maxP : List Nat) (size : Nat) (perm : List Nat)
    (hinf : maxP.sum < size) :
    ∀ (fuel : Nat) (sizes : List Nat) (sum_ : Nat),
      sizes.length = maxP.length → (∀ i, sizes.getD i 0 ≤ maxP.getD i 0) →
      sum_ = sizes.sum →
      ∃ e, increaseLoop maxP size perm fuel sizes sum_ = .error e := by
  intro fuel
  induction fuel with
  | zero => intro sizes sum_ _ _ _; exact ⟨_, rfl⟩
  | succ fuel ih =>
    intro sizes sum_ hlen hb hs
    have hlt : sum_ < size := by
      have : sizes.sum ≤ maxP.sum := sum_le_of_pointwise_le sizes maxP hlen hb
      omega
    simp only [increaseLoop, if_pos hlt]
    have spec := increasePass_spec maxP size perm sizes sum_ false hlen hb hs
    have hnohit : (increasePass maxP size perm sizes sum_ false).2.2.2 = false := by
      by_contra hc
      have hc' : (increasePass maxP size perm sizes sum_ false).2.2.2 = true := by
        revert hc; cases (increasePass maxP size perm sizes sum_ false).2.2.2 <;> simp
      have hge := spec.2.2.2 hc'
      have hle : (increasePass maxP size perm sizes sum_ false).1.sum ≤ maxP.sum :=
        sum_le_of_pointwise_le _ _ spec.1 spec.2.1
      omega
    rw [hnohit]
    simp only [Bool.false_eq_true, if_false]
    split
    · exact ih _ _ spec.1 spec.2.1 spec.2.2.1
    · exact ⟨_, rfl⟩

theorem adjustSizes_ok_bounds (sizes0 maxP : List Nat) (size : Nat)
    (permDec permInc : List Nat) (hlen : sizes0.length = maxP.length)
    (l : List Nat) (s : Nat)
    (h : adjustSizes maxP size permDec permInc (clampToMax sizes0 maxP)
        (clampToMax sizes0 maxP).sum = .ok (l, s)) :
    ∀ i, l.getD i 0 ≤ maxP.getD i 0 := by
  have hbounds0 : ∀ i, (clampToMax sizes0 maxP).getD i 0 ≤ maxP.getD i 0 :=
    clampToMax_getD_le sizes0 maxP
  unfold adjustSizes at h
  split at h
  · rw [Except.ok.injEq] at h
    intro i
    have := decreaseLoop_bounds size permDec maxP (clampToMax sizes0 maxP)
      (clampToMax sizes0 maxP).sum hbounds0 i
    rw [h] at this
    exact this
  · split at h
    · exact increaseLoop_ok_spec maxP size permInc (size + 2) _ _
        (clampToMax_length sizes0 maxP hlen) hbounds0 rfl l s h
    · rw [Except.ok.injEq, Prod.mk.injEq] at h
      intro i; rw [← h.1]; exact hbounds0 i

theorem adjustSizes_error_of_infeasible (sizes0 maxP : List Nat) (size : Nat)
    (permDec permInc : List Nat) (hlen : sizes0.length = maxP.length)
    (hinf : maxP.sum < size) :
    ∃ e, adjustSizes maxP size permDec permInc (clampToMax sizes0 maxP)
        (clampToMax sizes0 maxP).sum = .error e := by
  have hbounds0 : ∀ i, (clampToMax sizes0 maxP).getD i 0 ≤ maxP.getD i 0 :=
    clampToMax_getD_le sizes0 maxP
  have hsumle : (clampToMax sizes0 maxP).sum ≤ maxP.sum :=
    sum_le_of_pointwise_le _ _ (clampToMax_length sizes0 maxP hlen) hbounds0
  unfold adjustSizes
  rw [if_neg (by omega), if_pos (by omega)]
  exact increaseLoop_error_of_infeasible maxP size permInc hinf (size + 2) _ _
    (clampToMax_length sizes0 maxP hlen) hbounds0 rfl

/-- **C2.** `get_how_many_segments_to_cut_by_files` either returns a list of the
same length as the file list whose entries are bounded by the corresponding
`max_possible_segments_per_file` entries and whose sum is exactly `size`, or it
raises (assertion failure or `ValueError`); whenever the corpus cannot supply
`size` segments (the per-file maxima sum to less than `size`) it raises.  It
never returns a list summing to less than `size`. -/
theorem get_how_many_segments_ok_or_raises
    (sizes0 maxP : List Nat) (size : Nat) (permDec permInc : List Nat)
    (hlen : sizes0.length = maxP.length) :
    (∀ l, get_how_many_segments_to_cut_by_files sizes0 maxP size permDec permInc = .ok l →
        l.length = sizes0.length ∧ l.sum = size ∧ ∀ i, l.getD i 0 ≤ maxP.getD i 0)
    ∧ (maxP.sum < size →
        ∃ e, get_how_many_segments_to_cut_by_files sizes0 maxP size permDec permInc
          = .error e) := by
  constructor
  · intro l h
    unfold get_how_many_segments_to_cut_by_files at h
    rcases hA : adjustSizes maxP size permDec permInc (clampToMax sizes0 maxP)
        (clampToMax sizes0 maxP).sum with e | p
    · rw [hA] at h; simp at h
    · rw [hA] at h
      obtain ⟨lF, sF⟩ := p
      simp only at h
      split at h
      · split at h
        · rw [Except.ok.injEq] at h
          subst h
          exact ⟨by assumption, by assumption,
            adjustSizes_ok_bounds sizes0 maxP size permDec permInc hlen _ sF hA⟩
        · simp at h
      · simp at h
  · intro hinf
    obtain ⟨e, he⟩ :=
      adjustSizes_error_of_infeasible sizes0 maxP size permDec permInc hlen hinf
    unfold get_how_many_segments_to_cut_by_files
    rw [he]
    exact ⟨e, rfl⟩

theorem docsOf_revAdd (rev : List (Nat × List Nat)) (v k : Nat) :
    (docsOf (revAdd rev v k)).Perm (k :: docsOf rev) := by
  induction rev with
  | nil => simp [revAdd, docsOf]
  | cons e rest ih =>
    obtain ⟨v', l⟩ := e
    simp only [revAdd]
    split
    · simp only [docsOf, List.map_cons, List.flatten_cons]
      have h := List.perm_append_comm_assoc l [k] ((rest.map Prod.snd).flatten)
      simp only [List.singleton_append, List.append_assoc] at h ⊢
      exact h
    · simp only [docsOf, List.map_cons, List.flatten_cons] at ih ⊢
      exact ((List.perm_append_left_iff l).mpr ih).trans List.perm_middle

theorem revKeys_revAdd (rev : List (Nat × List Nat)) (v k : Nat) :
    revKeys (revAdd rev v k) = revKeys rev ∨
      revKeys (revAdd rev v k) = revKeys rev ++ [v] ∧ v ∉ revKeys rev := by
  induction rev with
  | nil => right; simp [revAdd, revKeys]
  | cons e rest ih =>
    obtain ⟨v', l⟩ := e
    simp only [revAdd]
    split
    · left; simp [revKeys]
    · rename_i hne
      rcases ih with h | ⟨h, hmem⟩
      · left; simp only [revKeys, List.map_cons] at h ⊢; rw [h]
      · right
        constructor
        · simp only [revKeys, List.map_cons] at h ⊢; simp [h]
        · simp only [revKeys, List.map_cons, List.mem_cons]
          rintro (h' | h')
          · exact hne h'.symm
          · exact hmem h'

theorem reverse_doc_id_aux (m : List (Nat × Nat)) :
    ∀ rev : List (Nat × List Nat),
      (docsOf (m.foldl (fun rev kv => revAdd rev kv.2 kv.1) rev)).Perm
        (docsOf rev ++ m.map Prod.fst) ∧
      ((revKeys rev).Nodup →
        (revKeys (m.foldl (fun rev kv => revAdd rev kv.2 kv.1) rev)).Nodup) ∧
      (∀ k ∈ revKeys (m.foldl (fun rev kv => revAdd rev kv.2 kv.1) rev),
        k ∈ revKeys rev ∨ k ∈ m.map Prod.snd) := by
  induction m with
  | nil => intro rev; refine ⟨by simp, fun h => h, fun k hk => Or.inl hk⟩
  | cons kv rest ih =>
    intro rev
    simp only [List.foldl_cons]
    obtain ⟨ihp, ihn, ihm⟩ := ih (revAdd rev kv.2 kv.1)
    refine ⟨?_, ?_, ?_⟩
    · refine ihp.trans ?_
      refine ((docsOf_revAdd rev kv.2 kv.1).append_right _).trans ?_
      simpa using List.perm_middle.symm
    · intro hnd
      apply ihn
      rcases revKeys_revAdd rev kv.2 kv.1 with h | ⟨h, hmem⟩
      · rw [h]; exact hnd
      · rw [h]
        simpa [List.nodup_append] using ⟨hnd, hmem⟩
    · intro k hk
      rcases ihm k hk with h | h
      · rcases revKeys_revAdd rev kv.2 kv.1 with he | ⟨he, _⟩
        · rw [he] at h; exact Or.inl h
        · rw [he] at h
          rcases List.mem_append.mp h with h' | h'
          · exact Or.inl h'
          · right; simp only [List.mem_singleton] at h'; simp [h']
      · right; simp [h]

theorem docsOf_reverse (m : List (Nat × Nat)) :
    (docsOf (reverse_doc_id_to_file_i m)).Perm (m.map Prod.fst) := by
  have h := (reverse_doc_id_aux m []).1
  simpa [docsOf] using h

theorem revKeys_reverse_nodup (m : List (Nat × Nat)) :
    (revKeys (reverse_doc_id_to_file_i m)).Nodup :=
  (reverse_doc_id_aux m []).2.1 (by simp [revKeys])

theorem revKeys_reverse_sub (m : List (Nat × Nat)) :
    ∀ k ∈ revKeys (reverse_doc_id_to_file_i m), k ∈ m.map Prod.snd := by
  intro k hk
  rcases (reverse_doc_id_aux m []).2.2 k hk with h | h
  · simp [revKeys] at h
  · exact h

theorem revKeys_revAppendEntry (rev : List (Nat × List Nat)) (k : Nat) (extra : List Nat) :
    revKeys (revAppendEntry rev k extra) = revKeys rev := by
  induction rev with
  | nil => simp [revAppendEntry, revKeys]
  | cons e rest ih =>
    obtain ⟨v', l⟩ := e
    simp only [revAppendEntry]
    split
    · simp only [revKeys, List.map_cons] at ih ⊢
    · simp only [revKeys, List.map_cons] at ih ⊢
      rw [ih]

theorem docsOf_revAppendEntry (rev : List (Nat × List Nat)) (k : Nat) (extra : List Nat)
    (h : (revGet rev k).isSome) :
    (docsOf (revAppendEntry rev k extra)).Perm (docsOf rev ++ extra) := by
  induction rev with
  | nil => simp [revGet] at h
  | cons e rest ih =>
    obtain ⟨v', l⟩ := e
    simp only [revAppendEntry]
    split
    · simp only [docsOf, List.map_cons, List.flatten_cons, List.append_assoc]
      exact (List.perm_append_left_iff l).mpr List.perm_append_comm
    · rename_i hne
      simp only [revGet, if_neg hne] at h
      simp only [docsOf, List.map_cons, List.flatten_cons, List.append_assoc] at ih ⊢
      exact (List.perm_append_left_iff l).mpr (ih h)

theorem revGet_revAppendEntry_ne (rev : List (Nat × List Nat)) (k k' : Nat)
    (extra : List Nat) (h : k ≠ k') :
    revGet (revAppendEntry rev k extra) k' = revGet rev k' := by
  induction rev with
  | nil => simp [revAppendEntry]
  | cons e rest ih =>
    obtain ⟨v', l⟩ := e
    simp only [revAppendEntry]
    split
    · rename_i he
      simp only [revGet, if_neg (he ▸ h)]
    · simp only [revGet]
      split
      · rfl
      · exact ih

theorem docsOf_revDel (rev : List (Nat × List Nat)) (fi : Nat) (dfi : List Nat)
    (h : revGet rev fi = some dfi) :
    (docsOf rev).Perm (dfi ++ docsOf (revDel rev fi)) := by
  induction rev with
  | nil => simp [revGet] at h
  | cons e rest ih =>
    obtain ⟨v', l⟩ := e
    simp only [revGet] at h
    simp only [revDel]
    split
    · rename_i he
      rw [if_pos he] at h
      simp only [Option.some.injEq] at h
      subst h
      simp [docsOf]
    · rename_i he
      rw [if_neg he] at h
      simp only [docsOf, List.map_cons, List.flatten_cons]
      refine ((List.perm_append_left_iff l).mpr (ih h)).trans ?_
      exact List.perm_append_comm_assoc l dfi _

theorem revKeys_revDel_sublist (rev : List (Nat × List Nat)) (fi : Nat) :
    (revKeys (revDel rev fi)).Sublist (revKeys rev) := by
  induction rev with
  | nil => simp [revDel, revKeys]
  | cons e rest ih =>
    obtain ⟨v', l⟩ := e
    simp only [revDel]
    split
    · simp only [revKeys, List.map_cons]
      exact List.sublist_cons_self _ _
    · simp only [revKeys, List.map_cons]
      exact ih.cons₂ v'

theorem not_mem_revKeys_revDel (rev : List (Nat × List Nat)) (fi : Nat)
    (hnd : (revKeys rev).Nodup) : fi ∉ revKeys (revDel rev fi) := by
  induction rev with
  | nil => simp [revDel, revKeys]
  | cons e rest ih =>
    obtain ⟨v', l⟩ := e
    simp only [revKeys, List.map_cons, List.nodup_cons] at hnd
    simp only [revDel]
    split
    · rename_i he
      rw [← he]
      exact hnd.1
    · rename_i he
      simp only [revKeys, List.map_cons, List.mem_cons]
      rintro (h | h)
      · exact he h.symm
      · exact ih hnd.2 h

theorem revMergeEntries_spec (rev : List (Nat × List Nat)) (curr fi : Nat)
    (hne : curr ≠ fi) (hnd : (revKeys rev).Nodup) :
    ∀ rev', revMergeEntries rev curr fi = .ok rev' →
      (docsOf rev').Perm (docsOf rev) ∧ (revKeys rev').Nodup ∧
      (∀ k ∈ revKeys rev', k ∈ revKeys rev ∧ k ≠ fi) := by
  intro rev' h
  unfold revMergeEntries at h
  rcases hfi : revGet rev fi with _ | dfi
  · rw [hfi] at h; simp at h
  · rcases hcur : revGet rev curr with _ | lcur
    · rw [hfi, hcur] at h; simp at h
    · rw [hfi, hcur] at h
      simp only [Except.ok.injEq] at h
      subst h
      have happ_keys := revKeys_revAppendEntry rev curr dfi
      have happ_get : revGet (revAppendEntry rev curr dfi) fi = some dfi := by
        rw [revGet_revAppendEntry_ne rev curr fi dfi hne, hfi]
      have happ_docs : (docsOf (revAppendEntry rev curr dfi)).Perm (docsOf rev ++ dfi) :=
        docsOf_revAppendEntry rev curr dfi (by rw [hcur]; rfl)
      have hdel_docs := docsOf_revDel (revAppendEntry rev curr dfi) fi dfi happ_get
      have hsub := revKeys_revDel_sublist (revAppendEntry rev curr dfi) fi
      rw [happ_keys] at hsub
      have happ_nd : (revKeys (revAppendEntry rev curr dfi)).Nodup := by
        rw [happ_keys]; exact hnd
      refine ⟨?_, hsub.nodup hnd, ?_⟩
      · have hchain : (dfi ++ docsOf (revDel (revAppendEntry rev curr dfi) fi)).Perm
            (dfi ++ docsOf rev) := by
          refine (hdel_docs.symm.trans happ_docs).trans ?_
          exact List.perm_append_comm
        exact (List.perm_append_left_iff dfi).mp hchain
      · intro k hk
        refine ⟨hsub.mem hk, ?_⟩
        intro hkfi
        subst hkfi
        exact not_mem_revKeys_revDel _ k happ_nd hk

theorem mergeLoop_spec (maxSize : Nat) (rest : List (Nat × Nat)) :
    ∀ (currI currSize : Nat) (done : List (Nat × Nat)) (rev : List (Nat × List Nat)),
      (revKeys rev).Nodup →
      (∀ k ∈ revKeys rev, k = currI ∨ k ∈ done.map Prod.fst ∨ k ∈ rest.map Prod.fst) →
      currI ∉ rest.map Prod.fst →
      (rest.map Prod.fst).Nodup →
      (∀ p ∈ rest, p.2 ≤ maxSize) →
      currSize ≤ 2 * maxSize - 1 →
      (∀ p ∈ done, p.2 ≤ 2 * maxSize - 1) →
      ∀ surv revF, mergeLoop maxSize rest currI currSize done rev = .ok (surv, revF) →
        (docsOf revF).Perm (docsOf rev) ∧
        (revKeys revF).Nodup ∧
        (∀ k ∈ revKeys revF, k ∈ surv.map Prod.fst) ∧
        (∀ p ∈ surv, p.2 ≤ 2 * maxSize - 1) := by
  induction rest with
  | nil =>
    intro currI currSize done rev hnd hloc _ _ _ hcur hdone surv revF h
    simp only [mergeLoop, Except.ok.injEq, Prod.mk.injEq] at h
    obtain ⟨hs, hr⟩ := h
    subst hs; subst hr
    refine ⟨List.Perm.refl _, hnd, ?_, ?_⟩
    · intro k hk
      rcases hloc k hk with h | h | h
      · simp [h]
      · simp only [List.map_append, List.mem_append]; exact Or.inl h
      · simp at h
    · intro p hp
      rcases List.mem_append.mp hp with h | h
      · exact hdone p h
      · simp only [List.mem_singleton] at h
        rw [h]
        exact hcur
  | cons f tl ih =>
    obtain ⟨fi, fsize⟩ := f
    intro currI currSize done rev hnd hloc hnotin hrestnd hsizes hcur hdone surv revF h
    simp only [mergeLoop] at h
    simp only [List.map_cons, List.mem_cons, List.nodup_cons] at hnotin hrestnd
    split at h
    · -- close the current file, start from (fi, fsize)
      refine ih fi fsize (done ++ [(currI, currSize)]) rev hnd ?_ hrestnd.1 hrestnd.2
        (fun p hp => hsizes p (by simp [hp])) ?_ ?_ surv revF h
      · intro k hk
        rcases hloc k hk with h' | h' | h'
        · right; left; simp [h']
        · right; left; simp [h']
        · simp only [List.map_cons, List.mem_cons] at h'
          rcases h' with h' | h'
          · exact Or.inl h'
          · right; right; exact h'
      · have := hsizes (fi, fsize) (by simp)
        simp only at this
        omega
      · intro p hp
        rcases List.mem_append.mp hp with h' | h'
        · exact hdone p h'
        · simp only [List.mem_singleton] at h'
          rw [h']
          exact hcur
    · -- merge (fi, fsize) into the current file
      rename_i hlt
      rcases hm : revMergeEntries rev currI fi with e | rev'
      · rw [hm] at h; simp at h
      · rw [hm] at h
        simp only at h
        have hne : currI ≠ fi := fun hc => hnotin (Or.inl hc)
        obtain ⟨hperm, hnd', hmem'⟩ := revMergeEntries_spec rev currI fi hne hnd rev' hm
        have hrec := ih currI (currSize + fsize) done rev' hnd' ?_ ?_ hrestnd.2
          (fun p hp => hsizes p (by simp [hp])) ?_ hdone surv revF h
        · exact ⟨hrec.1.trans hperm, hrec.2⟩
        · intro k hk
          obtain ⟨hk', hkfi⟩ := hmem' k hk
          rcases hloc k hk' with h' | h' | h'
          · exact Or.inl h'
          · exact Or.inr (Or.inl h')
          · simp only [List.map_cons, List.mem_cons] at h'
            rcases h' with h' | h'
            · exact absurd h' hkfi
            · exact Or.inr (Or.inr h')
        · intro hc
          exact hnotin (Or.inr hc)
        · have hf := hsizes (fi, fsize) (by simp)
          simp only at hf
          omega

theorem dictSet_append (d : List (Nat × Nat)) (k v : Nat) (h : k ∉ d.map Prod.fst) :
    dictSet d k v = d ++ [(k, v)] := by
  unfold dictSet
  rw [if_neg]
  simp only [List.any_eq_true, decide_eq_true_eq, not_exists, not_and]
  intro kv hkv hc
  exact h (by rw [← hc]; exact List.mem_map_of_mem Prod.fst hkv)

theorem inner_fold_append (k : Nat) (l : List Nat) :
    ∀ acc : List (Nat × Nat), (∀ d ∈ l, d ∉ acc.map Prod.fst) → l.Nodup →
      l.foldl (fun a d => dictSet a d k) acc = acc ++ l.map (fun d => (d, k)) := by
  induction l with
  | nil => intro acc _ _; simp
  | cons d rest ih =>
    intro acc hnot hnd
    simp only [List.nodup_cons] at hnd
    simp only [List.foldl_cons]
    rw [dictSet_append acc d k (hnot d (by simp))]
    rw [ih (acc ++ [(d, k)]) ?_ hnd.2]
    · simp
    · intro d' hd'
      simp only [List.map_append, List.mem_append, List.map_cons, List.map_nil,
        List.mem_singleton, not_or]
      exact ⟨hnot d' (by simp [hd']), fun hc => hnd.1 (hc ▸ hd')⟩

theorem rev_rev_flatten (rev : List (Nat × List Nat)) :
    ∀ acc : List (Nat × Nat),
      (docsOf rev).Nodup → (∀ d ∈ docsOf rev, d ∉ acc.map Prod.fst) →
      rev.foldl (fun acc kv => kv.2.foldl (fun a d => dictSet a d kv.1) acc) acc
        = acc ++ (rev.map (fun kv => kv.2.map (fun d => (d, kv.1)))).flatten := by
  induction rev with
  | nil => intro acc _ _; simp
  | cons kv rest ih =>
    intro acc hnd hnot
    simp only [docsOf, List.map_cons, List.flatten_cons, List.nodup_append] at hnd
    simp only [List.foldl_cons]
    rw [inner_fold_append kv.1 kv.2 acc
      (fun d hd => hnot d (by simp [docsOf, hd])) hnd.1]
    rw [ih (acc ++ kv.2.map (fun d => (d, kv.1))) hnd.2.1 ?_]
    · simp
    · intro d hd
      simp only [List.map_append, List.mem_append, not_or]
      refine ⟨hnot d (by simp only [docsOf, List.map_cons, List.flatten_cons,
        List.mem_append]; right; exact hd), ?_⟩
      simp only [List.map_map, Function.comp]
      intro hc
      have : d ∈ kv.2 := by simpa using hc
      exact hnd.2.2 this hd

theorem rev_rev_closed (rev : List (Nat × List Nat)) (hnd : (docsOf rev).Nodup) :
    rev_rev_doc_id_to_file_i rev
      = (rev.map (fun kv => kv.2.map (fun d => (d, kv.1)))).flatten := by
  have h := rev_rev_flatten rev [] hnd (by simp)
  simpa [rev_rev_doc_id_to_file_i] using h

theorem rev_rev_map_fst (rev : List (Nat × List Nat)) (hnd : (docsOf rev).Nodup) :
    (rev_rev_doc_id_to_file_i rev).map Prod.fst = docsOf rev := by
  rw [rev_rev_closed rev hnd, List.map_flatten]
  unfold docsOf
  congr 1
  rw [List.map_map]
  apply List.map_congr_left
  intro kv _
  have hf : (Prod.fst ∘ fun d : Nat => (d, kv.1)) = fun d : Nat => d := rfl
  simp only [Function.comp_apply]
  rw [List.map_map, hf]
  exact List.map_id' kv.2

theorem rev_rev_mem (rev : List (Nat × List Nat)) (hnd : (docsOf rev).Nodup) :
    ∀ p ∈ rev_rev_doc_id_to_file_i rev, p.2 ∈ revKeys rev := by
  rw [rev_rev_closed rev hnd]
  intro p hp
  rw [List.mem_flatten] at hp
  obtain ⟨sub, hsub, hpsub⟩ := hp
  rw [List.mem_map] at hsub
  obtain ⟨kv, hkv, hkveq⟩ := hsub
  rw [← hkveq] at hpsub
  rw [List.mem_map] at hpsub
  obtain ⟨d, _, hd⟩ := hpsub
  rw [← hd]
  exact List.mem_map_of_mem Prod.fst hkv

theorem foldl_max_le (l : List Nat) :
    ∀ a : Nat, a ≤ l.foldl max a ∧ ∀ x ∈ l, x ≤ l.foldl max a := by
  induction l with
  | nil => intro a; exact ⟨le_refl a, by simp⟩
  | cons b t ih =>
    intro a
    simp only [List.foldl_cons]
    obtain ⟨h1, h2⟩ := ih (max a b)
    refine ⟨le_trans (le_max_left a b) h1, ?_⟩
    intro x hx
    rcases List.mem_cons.mp hx with h | h
    · rw [h]; exact le_trans (le_max_right a b) h1
    · exact h2 x h

theorem maxSizeOf_bound (files : List (Nat × Nat)) :
    ∀ p ∈ files, p.2 ≤ maxSizeOf files := by
  intro p hp
  exact (foldl_max_le (files.map Prod.snd) 0).2 p.2 (List.mem_map_of_mem Prod.snd hp)

/-- **C3 (amended).** After `merge_small_files`, every document ID present in
the map before the merge maps to exactly one surviving shard file in the
returned map — the keys of the returned map are a permutation of the original
document IDs (no ID lost or duplicated) and every value is a surviving shard
index — and every surviving shard's byte size is at most
`2 * max_pre_merge_size - 1`.  The originally claimed bound
(`max_pre_merge_size` itself) is refuted by `merge_small_files_max_size_cex`:
merging stops only once the running shard has already reached the maximum, so
the final append may overshoot it. -/
theorem merge_small_files_spec (files m : List (Nat × Nat))
    (hmnd : (m.map Prod.fst).Nodup)
    (hfnd : (files.map Prod.fst).Nodup)
    (hcons : ∀ v ∈ m.map Prod.snd, v ∈ files.map Prod.fst) :
    ∀ surv result, merge_small_files files m = .ok (surv, result) →
      (result.map Prod.fst).Perm (m.map Prod.fst) ∧
      (∀ p ∈ result, p.2 ∈ surv.map Prod.fst) ∧
      (∀ p ∈ surv, p.2 ≤ 2 * maxSizeOf files - 1) := by
  intro surv result h
  cases files with
  | nil => simp [merge_small_files] at h
  | cons f0p rest =>
    obtain ⟨f0, s0⟩ := f0p
    have hdef : merge_small_files ((f0, s0) :: rest) m =
        (match mergeLoop (maxSizeOf ((f0, s0) :: rest)) rest f0 s0 []
            (reverse_doc_id_to_file_i m) with
        | .error e => .error e
        | .ok (surviving, revF) => .ok (surviving, rev_rev_doc_id_to_file_i revF)) := rfl
    rw [hdef] at h
    rcases hml : mergeLoop (maxSizeOf ((f0, s0) :: rest)) rest f0 s0 []
        (reverse_doc_id_to_file_i m) with e | pr
    · rw [hml] at h; simp at h
    · rw [hml] at h
      obtain ⟨sv, revF⟩ := pr
      simp only [Except.ok.injEq, Prod.mk.injEq] at h
      obtain ⟨hsv, hres⟩ := h
      subst hsv
      subst hres
      simp only [List.map_cons, List.nodup_cons] at hfnd
      obtain ⟨hperm, hndF, hkeysin, hsizesOut⟩ :=
        mergeLoop_spec (maxSizeOf ((f0, s0) :: rest)) rest f0 s0 []
          (reverse_doc_id_to_file_i m)
          (revKeys_reverse_nodup m)
          (by
            intro k hk
            have hk2 := hcons k (revKeys_reverse_sub m k hk)
            simp only [List.map_cons, List.mem_cons] at hk2
            rcases hk2 with h' | h'
            · exact Or.inl h'
            · exact Or.inr (Or.inr h'))
          hfnd.1 hfnd.2
          (fun p hp => maxSizeOf_bound _ p (by simp [hp]))
          (by
            have := maxSizeOf_bound ((f0, s0) :: rest) (f0, s0) (by simp)
            simp only at this
            omega)
          (by simp)
          _ revF hml
      have hcombined : (docsOf revF).Perm (m.map Prod.fst) :=
        hperm.trans (docsOf_reverse m)
      have hndDocs : (docsOf revF).Nodup := hcombined.symm.nodup hmnd
      refine ⟨?_, ?_, hsizesOut⟩
      · rw [rev_rev_map_fst revF hndDocs]
        exact hcombined
      · intro p hp
        exact hkeysin p.2 (rev_rev_mem revF hndDocs p hp)

/-- Counterexample to C3 as stated: shard files of sizes `10, 9, 10` (maximum
10).  File 2 is merged into file 1 because file 1 is still below the maximum,
producing a surviving shard of size 19 > 10. -/
theorem merge_small_files_max_size_cex :
    merge_small_files [(0, 10), (1, 9), (2, 10)] [(100, 0), (101, 1), (102, 2)]
        = .ok ([(0, 10), (1, 19)], [(100, 0), (101, 1), (102, 1)]) ∧
    maxSizeOf [(0, 10), (1, 9), (2, 10)] = 10 ∧
    ¬ (∀ p ∈ [((0 : Nat), (10 : Nat)), (1, 19)], p.2 ≤ 10) := by
  refine ⟨rfl, rfl, ?_⟩
  intro hc
  have := hc (1, 19) (by simp)
  simp at this

/-- Witness for the amended C3 at the counterexample input. -/
theorem merge_small_files_spec_witness :
    (([(100, 0), (101, 1), (102, 2)] : List (Nat × Nat)).map Prod.fst).Nodup ∧
    (([(0, 10), (1, 9), (2, 10)] : List (Nat × Nat)).map Prod.fst).Nodup ∧
    (∀ v ∈ ([(100, 0), (101, 1), (102, 2)] : List (Nat × Nat)).map Prod.snd,
      v ∈ ([(0, 10), (1, 9), (2, 10)] : List (Nat × Nat)).map Prod.fst) ∧
    (∀ surv result,
      merge_small_files [(0, 10), (1, 9), (2, 10)] [(100, 0), (101, 1), (102, 2)]
          = .ok (surv, result) →
      (result.map Prod.fst).Perm
        (([(100, 0), (101, 1), (102, 2)] : List (Nat × Nat)).map Prod.fst) ∧
      (∀ p ∈ result, p.2 ∈ surv.map Prod.fst) ∧
      (∀ p ∈ surv, p.2 ≤ 2 * maxSizeOf [(0, 10), (1, 9), (2, 10)] - 1)) :=
  ⟨by decide, by decide, by decide,
    merge_small_files_spec [(0, 10), (1, 9), (2, 10)] [(100, 0), (101, 1), (102, 2)]
      (by decide) (by decide) (by decide)⟩

theorem isPrefixOf_eq_append (p : List Char) :
    ∀ s : List Char, p.isPrefixOf s = true → s = p ++ s.drop p.length := by
  induction p with
  | nil => intro s _; simp
  | cons c cs ih =>
    intro s h
    cases s with
    | nil => simp [List.isPrefixOf] at h
    | cons d ds =>
      simp only [List.isPrefixOf, Bool.and_eq_true, beq_iff_eq] at h
      obtain ⟨h1, h2⟩ := h
      subst h1
      simp only [List.length_cons, List.drop_succ_cons, List.cons_append, List.cons.injEq]
      exact ⟨trivial, ih ds h2⟩

theorem splitFirst_eq (sep : List Char) (hsep : sep ≠ []) :
    ∀ s a b, splitFirst sep s = some (a, b) → s = a ++ sep ++ b := by
  intro s
  induction s with
  | nil =>
    intro a b h
    simp only [splitFirst, if_neg hsep] at h
    exact Option.noConfusion h
  | cons c cs ih =>
    intro a b h
    simp only [splitFirst] at h
    split at h
    · rename_i hpre
      simp only [Option.some.injEq, Prod.mk.injEq] at h
      obtain ⟨ha, hb⟩ := h
      subst ha; subst hb
      simpa using isPrefixOf_eq_append sep (c :: cs) hpre
    · rcases hs : splitFirst sep cs with _ | ⟨a', b'⟩
      · rw [hs] at h; simp at h
      · rw [hs] at h
        simp only [Option.some.injEq, Prod.mk.injEq] at h
        obtain ⟨ha, hb⟩ := h
        subst ha; subst hb
        have hcs := ih a' b' hs
        simp [hcs]

theorem splitFirst_length (sep : List Char) (hsep : sep ≠ []) (s a b : List Char)
    (h : splitFirst sep s = some (a, b)) : b.length + 1 ≤ s.length := by
  have heq := splitFirst_eq sep hsep s a b h
  have hlen : s.length = a.length + (sep.length + b.length) := by
    rw [heq]; simp [List.length_append]
  have hpos : 1 ≤ sep.length := by
    cases sep with
    | nil => exact absurd rfl hsep
    | cons _ _ => simp
  omega

theorem pySplitGo_length (sep : List Char) (hsep : sep ≠ []) :
    ∀ fuel s, s.length < fuel →
      (pySplitGo sep fuel s).length = pyCountGo sep fuel s + 1 := by
  intro fuel
  induction fuel with
  | zero => intro s h; omega
  | succ fuel ih =>
    intro s h
    simp only [pySplitGo, pyCountGo]
    rcases hs : splitFirst sep s with _ | ⟨a, b⟩
    · simp
    · simp only [List.length_cons]
      have hb := splitFirst_length sep hsep s a b hs
      rw [ih b (by omega)]
      omega

theorem pySplit_length_eq (sep : List Char) (hsep : sep ≠ []) (s : List Char) :
    (pySplit sep s).length = pyCount sep s + 1 :=
  pySplitGo_length sep hsep (s.length + 1) s (by omega)

theorem pyCountGo_zero_split (sep : List Char) (fuel : Nat) (s : List Char)
    (hfuel : 0 < fuel) (h : pyCountGo sep fuel s = 0) : splitFirst sep s = none := by
  cases fuel with
  | zero => omega
  | succ fuel =>
    rcases hs : splitFirst sep s with _ | ⟨a, b⟩
    · rfl
    · simp only [pyCountGo, hs] at h
      omega

theorem pySplitGo_of_none (sep : List Char) (fuel : Nat) (s : List Char)
    (hfuel : 0 < fuel) (h : splitFirst sep s = none) : pySplitGo sep fuel s = [s] := by
  cases fuel with
  | zero => omega
  | succ fuel => simp only [pySplitGo, h]

theorem pySplit_getD_one (sep : List Char) (hsep : sep ≠ []) (s : List Char)
    (h : pyCount sep s = 1) : (pySplit sep s).getD 1 [] = afterFirst sep s := by
  unfold pySplit
  unfold pyCount at h
  rcases hs : splitFirst sep s with _ | ⟨a, b⟩
  · simp only [pyCountGo, hs] at h
    omega
  · simp only [pyCountGo, hs] at h
    simp only [pySplitGo, hs]
    have hb := splitFirst_length sep hsep s a b hs
    have h0 : pyCountGo sep s.length b = 0 := by omega
    rw [pySplitGo_of_none sep s.length b (by omega) (pyCountGo_zero_split sep s.length b (by omega) h0)]
    simp [afterFirst, hs]

/-- **C8 (amended).** `PreprocessUNWorker` fails at the body-tag check iff the
number of `<body>` tags in the file is not exactly one, or the number of
`</body>` tags in the portion *after the first `<body>`* is not exactly one.
(The originally claimed condition, counting `</body>` over the whole file, is
refuted by `unBodyCheck_cex`: a file with exactly one tag of each kind but with
`</body>` preceding `<body>` still raises.) -/
theorem unBodyCheck_error_iff (text : List Char) :
    (∃ e, unBodyCheck text = .error e) ↔
      ¬ (pyCount bodyOpen text = 1 ∧
         pyCount bodyClose (afterFirst bodyOpen text) = 1) := by
  have h1 : (pySplit bodyOpen text).length = pyCount bodyOpen text + 1 :=
    pySplit_length_eq bodyOpen (by decide) text
  unfold unBodyCheck
  by_cases hc1 : pyCount bodyOpen text = 1
  · rw [if_neg (show ¬ (pySplit bodyOpen text).length ≠ 2 by omega)]
    rw [pySplit_getD_one bodyOpen (by decide) text hc1]
    have h2 : (pySplit bodyClose (afterFirst bodyOpen text)).length
        = pyCount bodyClose (afterFirst bodyOpen text) + 1 :=
      pySplit_length_eq bodyClose (by decide) _
    by_cases hc2 : pyCount bodyClose (afterFirst bodyOpen text) = 1
    · rw [if_neg (show ¬ (pySplit bodyClose (afterFirst bodyOpen text)).length ≠ 2 by omega)]
      constructor
      · rintro ⟨e, he⟩
        simp at he
      · intro hcc
        exact absurd ⟨hc1, hc2⟩ hcc
    · rw [if_pos (by omega)]
      constructor
      · intro _
        exact fun hcc => hc2 hcc.2
      · intro _
        exact ⟨_, rfl⟩
  · rw [if_pos (by omega)]
    constructor
    · intro _
      exact fun hcc => hc1 hcc.1
    · intro _
      exact ⟨_, rfl⟩

/-- Counterexample to C8 as stated: the file `x</body>y<body>z` contains
exactly one `<body>` tag and exactly one `</body>` tag, yet
`PreprocessUNWorker` raises, because the `</body>` count is taken only over
the part after the first `<body>`. -/
theorem unBodyCheck_cex :
    pyCount bodyOpen ("x</body>y<body>z".toList) = 1 ∧
    pyCount bodyClose ("x</body>y<body>z".toList) = 1 ∧
    ∃ e, unBodyCheck ("x</body>y<body>z".toList) = .error e := by
  refine ⟨by decide, by decide,
    ⟨"ValueError: Wrong number of </body> tags were found in file", by rfl⟩⟩

theorem drain_isSome_iff (q : List Int) :
    (drainUntilSentinel q).isSome = true ↔ (-1 : Int) ∈ q := by
  induction q with
  | nil => simp [drainUntilSentinel]
  | cons v rest ih =>
    simp only [drainUntilSentinel, List.mem_cons]
    split
    · rename_i hv
      simp [hv]
    · rename_i hv
      rw [ih]
      constructor
      · exact Or.inr
      · rintro (h | h)
        · exact absurd h.symm hv
        · exact h

theorem processBar_run (q rest : List Int) (t : Int)
    (hd : drainUntilSentinel q = some rest) :
    processBar q { n := 0, total := t, finished := false, warned := false }
      = some (rest, { n := -1, total := t, finished := true, warned := decide (0 < t) }) := by
  simp only [processBar, hd, Bool.false_or]
  by_cases hge : (0 : Int) + (-1) ≥ t
  · rw [if_pos hge]; norm_num
  · rw [if_neg hge]; norm_num

theorem processBar_finished (q : List Int) (bar : Bar) :
    ∀ q' bar', processBar q bar = some (q', bar') → bar'.finished = true := by
  intro q' bar' h
  simp only [processBar] at h
  rcases hd : drainUntilSentinel q with _ | rest
  · rw [hd] at h; exact Option.noConfusion h
  · rw [hd] at h
    simp only [Option.some.injEq, Prod.mk.injEq] at h
    rw [← h.2]
    split
    · rfl
    · rfl

theorem processRound_finished :
    ∀ (qs : List (List Int)) (bars : List Bar) (qs' : List (List Int)) (bars' : List Bar),
      processRound qs bars = some (qs', bars') → ∀ b ∈ bars', b.finished = true := by
  intro qs
  induction qs with
  | nil =>
    intro bars qs' bars' h
    cases bars with
    | nil =>
      simp only [processRound, Option.some.injEq, Prod.mk.injEq] at h
      rw [← h.2]
      simp
    | cons _ _ => simp [processRound] at h
  | cons q rest ih =>
    intro bars qs' bars' h
    cases bars with
    | nil => simp [processRound] at h
    | cons bar bars =>
      simp only [processRound] at h
      rcases hb : processBar q bar with _ | ⟨q1, bar1⟩
      · rw [hb] at h; exact Option.noConfusion h
      · rw [hb] at h
        rcases hr : processRound rest bars with _ | ⟨qs1, bars1⟩
        · rw [hr] at h; exact Option.noConfusion h
        · rw [hr] at h
          simp only [Option.some.injEq, Prod.mk.injEq] at h
          intro b hbmem
          rw [← h.2] at hbmem
          rcases List.mem_cons.mp hbmem with hb' | hb'
          · rw [hb']
            exact processBar_finished q bar q1 bar1 hb
          · exact ih bars qs1 bars1 hr b hb'

theorem processRound_run :
    ∀ (qs : List (List Int)) (totals : List Int), qs.length = totals.length →
      (∀ q ∈ qs, (-1 : Int) ∈ q) →
      ∃ qs', processRound qs
          (totals.map fun t => { n := 0, total := t, finished := false, warned := false })
        = some (qs',
            totals.map fun t => { n := -1, total := t, finished := true,
                                  warned := decide (0 < t) }) := by
  intro qs
  induction qs with
  | nil =>
    intro totals hlen _
    cases totals with
    | nil => exact ⟨[], rfl⟩
    | cons _ _ => simp at hlen
  | cons q rest ih =>
    intro totals hlen hmem
    cases totals with
    | nil => simp at hlen
    | cons t ts =>
      have hq : (-1 : Int) ∈ q := hmem q (by simp)
      have hsome : (drainUntilSentinel q).isSome = true := (drain_isSome_iff q).mpr hq
      rcases hd : drainUntilSentinel q with _ | qrest
      · rw [hd] at hsome; exact Bool.noConfusion hsome
      · obtain ⟨qs', hqs'⟩ := ih ts (by simpa using hlen) (fun q' hq' => hmem q' (by simp [hq']))
        refine ⟨qrest :: qs', ?_⟩
        simp only [List.map_cons, processRound, processBar_run q qrest t hd, hqs']

theorem processRound_none :
    ∀ (qs : List (List Int)) (bars : List Bar), qs.length = bars.length →
      (∃ q ∈ qs, (-1 : Int) ∉ q) → processRound qs bars = none := by
  intro qs
  induction qs with
  | nil =>
    intro bars _ hex
    obtain ⟨q, hq, _⟩ := hex
    simp at hq
  | cons q rest ih =>
    intro bars hlen hex
    cases bars with
    | nil => simp at hlen
    | cons bar bars =>
      simp only [processRound]
      rcases hb : processBar q bar with _ | ⟨q1, bar1⟩
      · rfl
      · obtain ⟨qbad, hqbad, hnot⟩ := hex
        rcases List.mem_cons.mp hqbad with hq' | hq'
        · exfalso
          subst hq'
          simp only [processBar] at hb
          rcases hd : drainUntilSentinel qbad with _ | r
          · rw [hd] at hb; exact Option.noConfusion hb
          · have : (-1 : Int) ∈ qbad := (drain_isSome_iff qbad).mp (by rw [hd]; rfl)
            exact hnot this
        · rw [ih bars (by simpa using hlen) ⟨qbad, hq', hnot⟩]

/-- **C9.** The progress consumer `show_prog` treats −1 on a queue as that
bar's finalize signal.  For queues that each eventually deliver −1, the
consumer terminates normally with every bar finalized, logging (not raising)
the below-total warning exactly for the bars whose count is still below their
declared total when finalized; whenever any queue never delivers −1, the
consumer never terminates.  Whenever `show_prog` terminates normally, every
tracked bar has been finalized — never before. -/
theorem show_prog_finalize (qs : List (List Int)) (totals : List Int)
    (hlen : qs.length = totals.length) :
    ((∀ q ∈ qs, (-1 : Int) ∈ q) →
      show_prog qs totals
        = some (totals.map fun t =>
            { n := -1, total := t, finished := true, warned := decide (0 < t) })) ∧
    (∀ bars, show_prog qs totals = some bars → ∀ b ∈ bars, b.finished = true) ∧
    ((∃ q ∈ qs, (-1 : Int) ∉ q) → show_prog qs totals = none) := by
  refine ⟨?_, ?_, ?_⟩
  · intro hmem
    obtain ⟨qs', hrun⟩ := processRound_run qs totals hlen hmem
    simp only [show_prog, hrun]
    rw [if_pos]
    rw [List.all_eq_true]
    intro b hb
    rw [List.mem_map] at hb
    obtain ⟨t, _, hbt⟩ := hb
    rw [← hbt]
  · intro bars h
    simp only [show_prog] at h
    rcases hr : processRound qs
        (totals.map fun t => { n := 0, total := t, finished := false, warned := false })
      with _ | ⟨qs1, bars1⟩
    · rw [hr] at h; exact Option.noConfusion h
    · rw [hr] at h
      split at h
      · rename_i heq
        exact Option.noConfusion heq
      · rename_i fst bars1x heq
        rw [Option.some.injEq, Prod.mk.injEq] at heq
        obtain ⟨-, hb1⟩ := heq
        subst hb1
        split at h
        · rw [Option.some.injEq] at h
          subst h
          exact processRound_finished qs _ _ _ hr
        · exact Option.noConfusion h
  · intro hex
    have hnone := processRound_none qs
      (totals.map fun t => { n := 0, total := t, finished := false, warned := false })
      (by simp [hlen]) hex
    simp only [show_prog, hnone]

/-- Witness for C9: two queues, one receiving a delta before its sentinel. -/
theorem show_prog_finalize_witness :
    ([[5, -1], [-1]] : List (List Int)).length = ([7, 0] : List Int).length ∧
    (((∀ q ∈ ([[5, -1], [-1]] : List (List Int)), (-1 : Int) ∈ q) →
      show_prog [[5, -1], [-1]] [7, 0]
        = some (([7, 0] : List Int).map fun t =>
            { n := -1, total := t, finished := true, warned := decide (0 < t) })) ∧
    (∀ bars, show_prog [[5, -1], [-1]] [7, 0] = some bars →
      ∀ b ∈ bars, b.finished = true) ∧
    ((∃ q ∈ ([[5, -1], [-1]] : List (List Int)), (-1 : Int) ∉ q) →
      show_prog [[5, -1], [-1]] [7, 0] = none)) :=
  ⟨rfl, show_prog_finalize [[5, -1], [-1]] [7, 0] rfl⟩

theorem dropWhile_length_le (p : Char → Bool) (l : List Char) :
    (l.dropWhile p).length ≤ l.length := by
  induction l with
  | nil => simp
  | cons a t ih =>
    rw [List.dropWhile_cons]
    split
    · simp only [List.length_cons]; omega
    · simp

theorem dropWhile_head_false (p : Char → Bool) :
    ∀ (l : List Char) (c : Char) (cs : List Char),
      l.dropWhile p = c :: cs → p c = false := by
  intro l
  induction l with
  | nil => intro c cs h; exact List.noConfusion h
  | cons a t ih =>
    intro c cs h
    rw [List.dropWhile_cons] at h
    split at h
    · exact ih c cs h
    · rename_i hna
      have ha : a = c := ((List.cons.injEq a t c cs).mp h).1
      rw [← ha]
      revert hna
      cases p a
      · intro _; rfl
      · intro hna; exact absurd rfl hna

theorem tokenize_rem_lt (wc : Char → Bool) (s : List Char) (c : Char) (cs : List Char)
    (h : s.dropWhile (fun c => !wc c) = c :: cs) :
    (((c :: cs).dropWhile wc).dropWhile (fun c => !wc c)).length < s.length := by
  have hc : (fun c => !wc c) c = false := dropWhile_head_false _ s c cs h
  have hwcc : wc c = true := by simpa using hc
  have h1 : (c :: cs).length ≤ s.length := by
    rw [← h]; exact dropWhile_length_le _ s
  rw [List.dropWhile_cons, if_pos hwcc]
  have h2 := dropWhile_length_le wc cs
  have h3 := dropWhile_length_le (fun c => !wc c) (cs.dropWhile wc)
  simp only [List.length_cons] at h1
  omega

theorem tokenizeGo_congr (wc : Char → Bool) :
    ∀ (n : Nat) (s : List Char) (f1 f2 : Nat), s.length ≤ n →
      s.length < f1 → s.length < f2 →
      tokenizeGo wc f1 s = tokenizeGo wc f2 s := by
  intro n
  induction n with
  | zero =>
    intro s f1 f2 hn h1 h2
    cases f1 with
    | zero => omega
    | succ f1 =>
      cases f2 with
      | zero => omega
      | succ f2 =>
        have hs : s = [] := List.length_eq_zero.mp (by omega)
        subst hs
        rfl
  | succ n ih =>
    intro s f1 f2 hn h1 h2
    cases f1 with
    | zero => omega
    | succ f1 =>
      cases f2 with
      | zero => omega
      | succ f2 =>
        rcases hdw : s.dropWhile (fun c => !wc c) with _ | ⟨c, cs⟩
        · simp only [tokenizeGo, hdw]
        · simp only [tokenizeGo, hdw]
          have hlt := tokenize_rem_lt wc s c cs hdw
          congr 1
          exact ih (((c :: cs).dropWhile wc).dropWhile (fun c => !wc c)) f1 f2
            (by omega) (by omega) (by omega)

/-- The fuel-free unfolding equation of `tokenize`. -/
theorem tokenize_eq (wc : Char → Bool) (s : List Char) :
    tokenize wc s =
      (match s.dropWhile (fun c => !wc c) with
      | [] => []
      | c :: cs =>
        (s.takeWhile (fun c => !wc c) ++ (c :: cs).takeWhile wc
            ++ ((c :: cs).dropWhile wc).takeWhile (fun c => !wc c))
          :: tokenize wc (((c :: cs).dropWhile wc).dropWhile (fun c => !wc c))) := by
  unfold tokenize
  rcases hdw : s.dropWhile (fun c => !wc c) with _ | ⟨c, cs⟩
  · simp only [tokenizeGo, hdw]
  · simp only [tokenizeGo, hdw]
    have hlt := tokenize_rem_lt wc s c cs hdw
    congr 1
    exact tokenizeGo_congr wc
      (((c :: cs).dropWhile wc).dropWhile (fun c => !wc c)).length
      (((c :: cs).dropWhile wc).dropWhile (fun c => !wc c))
      s.length
      ((((c :: cs).dropWhile wc).dropWhile (fun c => !wc c)).length + 1)
      (le_refl _) (by omega) (by omega)

theorem takeWhile_mem_true (p : Char → Bool) :
    ∀ l : List Char, ∀ c ∈ l.takeWhile p, p c = true := by
  intro l
  induction l with
  | nil => intro c h; simp at h
  | cons a t ih =>
    intro c h
    rw [List.takeWhile_cons] at h
    split at h
    · rcases List.mem_cons.mp h with h' | h'
      · rw [h']; assumption
      · exact ih c h'
    · simp at h

theorem takeWhile_append_all (p : Char → Bool) (a : List Char)
    (h : ∀ c ∈ a, p c = true) : ∀ b, (a ++ b).takeWhile p = a ++ b.takeWhile p := by
  induction a with
  | nil => intro b; simp
  | cons x t ih =>
    intro b
    simp only [List.cons_append, List.takeWhile_cons, h x (by simp), if_pos]
    rw [ih (fun c hc => h c (by simp [hc])) b]

theorem dropWhile_append_all (p : Char → Bool) (a : List Char)
    (h : ∀ c ∈ a, p c = true) : ∀ b, (a ++ b).dropWhile p = b.dropWhile p := by
  induction a with
  | nil => intro b; simp
  | cons x t ih =>
    intro b
    simp only [List.cons_append, List.dropWhile_cons, h x (by simp), if_pos]
    exact ih (fun c hc => h c (by simp [hc])) b

theorem takeWhile_all (p : Char → Bool) (a : List Char)
    (h : ∀ c ∈ a, p c = true) : a.takeWhile p = a := by
  have := takeWhile_append_all p a h []
  simpa using this

theorem dropWhile_all (p : Char → Bool) (a : List Char)
    (h : ∀ c ∈ a, p c = true) : a.dropWhile p = [] := by
  have := dropWhile_append_all p a h []
  simpa using this

theorem takeWhile_cons_false (p : Char → Bool) (c : Char) (l : List Char)
    (h : p c = false) : (c :: l).takeWhile p = [] := by
  rw [List.takeWhile_cons, h]
  rfl

theorem dropWhile_cons_false (p : Char → Bool) (c : Char) (l : List Char)
    (h : p c = false) : (c :: l).dropWhile p = c :: l := by
  rw [List.dropWhile_cons, h]
  rfl

theorem tokenize_nil (wc : Char → Bool) : tokenize wc [] = [] := rfl

theorem tokenize_single (wc : Char → Bool) (t : List Char) (h : TokShape wc t) :
    tokenize wc t = [t] := by
  obtain ⟨pre, run, post, ht, hpre, hrun_ne, hrun, hpost⟩ := h
  subst ht
  obtain ⟨r, run', hrun_eq⟩ : ∃ r run', run = r :: run' := by
    cases run with
    | nil => exact absurd rfl hrun_ne
    | cons r run' => exact ⟨r, run', rfl⟩
  subst hrun_eq
  have hpre_p : ∀ c ∈ pre, (fun c => !wc c) c = true := by
    intro c hc; simp [hpre c hc]
  have hr : wc r = true := hrun r (by simp)
  have hpost_p : ∀ c ∈ post, (fun c => !wc c) c = true := by
    intro c hc; simp [hpost c hc]
  rw [tokenize_eq]
  have hdw : ((pre ++ (r :: run') ++ post)).dropWhile (fun c => !wc c)
      = r :: (run' ++ post) := by
    rw [List.append_assoc, dropWhile_append_all _ pre hpre_p]
    rw [List.cons_append, dropWhile_cons_false _ r (run' ++ post) (by simp [hr])]
  simp only [hdw]
  have htw : ((pre ++ (r :: run') ++ post)).takeWhile (fun c => !wc c) = pre := by
    rw [List.append_assoc, takeWhile_append_all _ pre hpre_p]
    rw [List.cons_append, takeWhile_cons_false _ r (run' ++ post) (by simp [hr])]
    simp
  have htw2 : (r :: (run' ++ post)).takeWhile wc = r :: run' := by
    have : r :: (run' ++ post) = (r :: run') ++ post := by simp
    rw [this, takeWhile_append_all wc (r :: run') hrun]
    cases post with
    | nil => simp
    | cons q post' =>
      rw [takeWhile_cons_false wc q post' (hpost q (by simp))]
      simp
  have hdw2 : (r :: (run' ++ post)).dropWhile wc = post := by
    have : r :: (run' ++ post) = (r :: run') ++ post := by simp
    rw [this, dropWhile_append_all wc (r :: run') hrun]
    cases post with
    | nil => simp
    | cons q post' =>
      exact dropWhile_cons_false wc q post' (hpost q (by simp))
  rw [htw, htw2, hdw2, takeWhile_all _ post hpost_p, dropWhile_all _ post hpost_p,
    tokenize_nil]

theorem tokenize_cons_mid (wc : Char → Bool) (t z : List Char)
    (hmid : TokShapeMid wc t) (hz : HeadW wc z) :
    tokenize wc (t ++ z) = t :: tokenize wc z := by
  obtain ⟨pre, run, post, ht, hpre, hrun_ne, hrun, hpost, hpost_ne⟩ := hmid
  obtain ⟨d, z', hz_eq, hd⟩ := hz
  subst ht
  subst hz_eq
  obtain ⟨r, run', hrun_eq⟩ : ∃ r run', run = r :: run' := by
    cases run with
    | nil => exact absurd rfl hrun_ne
    | cons r run' => exact ⟨r, run', rfl⟩
  subst hrun_eq
  obtain ⟨q, post', hpost_eq⟩ : ∃ q post', post = q :: post' := by
    cases post with
    | nil => exact absurd rfl hpost_ne
    | cons q post' => exact ⟨q, post', rfl⟩
  subst hpost_eq
  have hpre_p : ∀ c ∈ pre, (fun c => !wc c) c = true := by
    intro c hc; simp [hpre c hc]
  have hr : wc r = true := hrun r (by simp)
  have hq : wc q = false := hpost q (by simp)
  have hpost_p : ∀ c ∈ (q :: post'), (fun c => !wc c) c = true := by
    intro c hc; simp [hpost c hc]
  rw [tokenize_eq]
  have hshape : pre ++ (r :: run') ++ (q :: post') ++ (d :: z')
      = pre ++ ((r :: run') ++ ((q :: post') ++ (d :: z'))) := by simp
  have hdw : ((pre ++ (r :: run') ++ (q :: post')) ++ (d :: z')).dropWhile (fun c => !wc c)
      = r :: (run' ++ ((q :: post') ++ (d :: z'))) := by
    rw [hshape, dropWhile_append_all _ pre hpre_p, List.cons_append,
      dropWhile_cons_false _ r _ (by simp [hr])]
  simp only [hdw]
  have htw : ((pre ++ (r :: run') ++ (q :: post')) ++ (d :: z')).takeWhile (fun c => !wc c)
      = pre := by
    rw [hshape, takeWhile_append_all _ pre hpre_p, List.cons_append,
      takeWhile_cons_false _ r _ (by simp [hr])]
    simp
  have hassoc : r :: (run' ++ ((q :: post') ++ (d :: z')))
      = (r :: run') ++ ((q :: post') ++ (d :: z')) := by simp
  have htw2 : (r :: (run' ++ ((q :: post') ++ (d :: z')))).takeWhile wc = r :: run' := by
    rw [hassoc, takeWhile_append_all wc (r :: run') hrun,
      List.cons_append q post' (d :: z'),
      takeWhile_cons_false wc q (post' ++ d :: z') hq]
    simp
  have hdw2 : (r :: (run' ++ ((q :: post') ++ (d :: z')))).dropWhile wc
      = (q :: post') ++ (d :: z') := by
    rw [hassoc, dropWhile_append_all wc (r :: run') hrun,
      List.cons_append q post' (d :: z'),
      dropWhile_cons_false wc q (post' ++ d :: z') hq]
  have htw3 : ((q :: post') ++ (d :: z')).takeWhile (fun c => !wc c) = q :: post' := by
    rw [takeWhile_append_all _ (q :: post') hpost_p,
      takeWhile_cons_false _ d z' (by simp [hd])]
    simp
  have hdw3 : ((q :: post') ++ (d :: z')).dropWhile (fun c => !wc c) = d :: z' := by
    rw [dropWhile_append_all _ (q :: post') hpost_p,
      dropWhile_cons_false _ d z' (by simp [hd])]
  rw [htw, htw2, hdw2, htw3, hdw3]

theorem tokShape_of_mid (wc : Char → Bool) (t : List Char) (h : TokShapeMid wc t) :
    TokShape wc t := by
  obtain ⟨pre, run, post, ht, hpre, hrun_ne, hrun, hpost, _⟩ := h
  exact ⟨pre, run, post, ht, hpre, hrun_ne, hrun, hpost⟩

theorem tokenize_chain (wc : Char → Bool) :
    ∀ (n : Nat) (s : List Char), s.length ≤ n →
      TokChain wc true (tokenize wc s) ∧
      ((∀ c cs, s = c :: cs → wc c = true) → TokChain wc false (tokenize wc s)) := by
  intro n
  induction n with
  | zero =>
    intro s hn
    have hs : s = [] := List.length_eq_zero.mp (by omega)
    subst hs
    rw [tokenize_nil]
    exact ⟨TokChain.nil true, fun _ => TokChain.nil false⟩
  | succ n ih =>
    intro s hn
    rcases hdw : s.dropWhile (fun c => !wc c) with _ | ⟨c, cs⟩
    · rw [tokenize_eq]
      simp only [hdw]
      exact ⟨TokChain.nil true, fun _ => TokChain.nil false⟩
    · have hwcc : wc c = true := by
        have := dropWhile_head_false (fun c => !wc c) s c cs hdw
        simpa using this
      have hlt := tokenize_rem_lt wc s c cs hdw
      set rem := ((c :: cs).dropWhile wc).dropWhile (fun c => !wc c) with hrem
      have hremW : ∀ d ds, rem = d :: ds → wc d = true := by
        intro d ds hd
        have := dropWhile_head_false (fun c => !wc c) ((c :: cs).dropWhile wc) d ds
          (by rw [← hrem]; exact hd)
        simpa using this
      obtain ⟨ihc, ihw⟩ := ih rem (by omega)
      have hchain_rem : TokChain wc false (tokenize wc rem) := ihw hremW
      set t0 := s.takeWhile (fun c => !wc c) ++ (c :: cs).takeWhile wc
          ++ ((c :: cs).dropWhile wc).takeWhile (fun c => !wc c) with ht0
      have hstep : tokenize wc s = t0 :: tokenize wc rem := by
        rw [tokenize_eq]
        simp only [hdw]
      have hpre_nw : ∀ x ∈ s.takeWhile (fun c => !wc c), wc x = false := by
        intro x hx
        have := takeWhile_mem_true (fun c => !wc c) s x hx
        simpa using this
      have hrun_w : ∀ x ∈ (c :: cs).takeWhile wc, wc x = true :=
        takeWhile_mem_true wc (c :: cs)
      have hrun_ne : (c :: cs).takeWhile wc ≠ [] := by
        rw [List.takeWhile_cons, if_pos hwcc]
        simp
      have hpost_nw : ∀ x ∈ ((c :: cs).dropWhile wc).takeWhile (fun c => !wc c),
          wc x = false := by
        intro x hx
        have := takeWhile_mem_true (fun c => !wc c) ((c :: cs).dropWhile wc) x hx
        simpa using this
      have hshape : TokShape wc t0 :=
        ⟨_, _, _, ht0.symm ▸ rfl, hpre_nw, hrun_ne, hrun_w, hpost_nw⟩
      have hheadW : (∀ c' cs', s = c' :: cs' → wc c' = true) → HeadW wc t0 := by
        intro hstart
        cases s with
        | nil => simp [List.dropWhile_nil] at hdw
        | cons a as =>
          have hwa : wc a = true := hstart a as rfl
          have htk : (a :: as).takeWhile (fun c => !wc c) = [] :=
            takeWhile_cons_false _ a as (by simp [hwa])
          have hdwa : (a :: as).dropWhile (fun c => !wc c) = a :: as :=
            dropWhile_cons_false _ a as (by simp [hwa])
          rw [hdwa] at hdw
          have hac : a = c := (List.cons.injEq a as c cs).mp hdw |>.1
          have htkw : (c :: cs).takeWhile wc = c :: cs.takeWhile wc := by
            rw [List.takeWhile_cons, if_pos hwcc]
          refine ⟨c, cs.takeWhile wc
            ++ ((c :: cs).dropWhile wc).takeWhile (fun c => !wc c), ?_, hwcc⟩
          rw [ht0, htk, htkw]
          simp
      rcases htr : tokenize wc rem with _ | ⟨t1, ts1⟩
      · -- t0 is the last match
        have hlast : ∀ b, (b = false → HeadW wc t0) → TokChain wc b (tokenize wc s) := by
          intro b hb
          rw [hstep, htr]
          exact TokChain.last b t0 hshape hb
        exact ⟨hlast true (fun h => Bool.noConfusion h), fun hstart =>
          hlast false (fun _ => hheadW hstart)⟩
      · -- t0 is a mid match: rem is nonempty, so the post part of t0 is nonempty
        have hrem_ne : rem ≠ [] := by
          intro hc
          rw [hc, tokenize_nil] at htr
          exact List.noConfusion htr
        obtain ⟨d, ds, hrem_eq⟩ : ∃ d ds, rem = d :: ds := by
          cases hrm : rem with
          | nil => exact absurd hrm hrem_ne
          | cons d ds => exact ⟨d, ds, rfl⟩
        have hX_ne : (c :: cs).dropWhile wc ≠ [] := by
          intro hc
          rw [hrem, hc] at hrem_eq
          exact List.noConfusion hrem_eq
        obtain ⟨x, xs, hX_eq⟩ : ∃ x xs, (c :: cs).dropWhile wc = x :: xs := by
          cases hX : (c :: cs).dropWhile wc with
          | nil => exact absurd hX hX_ne
          | cons x xs => exact ⟨x, xs, rfl⟩
        have hx_nw : wc x = false := dropWhile_head_false wc (c :: cs) x xs hX_eq
        have hpost_ne : ((c :: cs).dropWhile wc).takeWhile (fun c => !wc c) ≠ [] := by
          rw [hX_eq, List.takeWhile_cons, if_pos (by simp [hx_nw])]
          simp
        have hmid : TokShapeMid wc t0 :=
          ⟨_, _, _, ht0.symm ▸ rfl, hpre_nw, hrun_ne, hrun_w, hpost_nw, hpost_ne⟩
        have hcons : ∀ b, (b = false → HeadW wc t0) → TokChain wc b (tokenize wc s) := by
          intro b hb
          rw [hstep]
          refine TokChain.cons b t0 (tokenize wc rem) hmid hb ?_ hchain_rem
          rw [htr]
          simp
        exact ⟨hcons true (fun h => Bool.noConfusion h), fun hstart =>
          hcons false (fun _ => hheadW hstart)⟩

theorem chain_take (wc : Char → Bool) :
    ∀ (ts : List (List Char)) (first : Bool) (k : Nat),
      TokChain wc first ts → TokChain wc first (ts.take k) := by
  intro ts
  induction ts with
  | nil => intro first k _; simp only [List.take_nil]; exact TokChain.nil first
  | cons t rest ih =>
    intro first k h
    cases k with
    | zero => exact TokChain.nil first
    | succ k =>
      cases h with
      | last _ _ hshape hhead =>
        simp only [List.take_succ_cons, List.take_nil]
        exact TokChain.last first t hshape hhead
      | cons _ _ _ hmid hhead hne hchain =>
        simp only [List.take_succ_cons]
        rcases htk : rest.take k with _ | ⟨t1, ts1⟩
        · exact TokChain.last first t (tokShape_of_mid wc t hmid) hhead
        · rw [← htk]
          refine TokChain.cons first t (rest.take k) hmid hhead (by rw [htk]; simp) ?_
          exact ih false k hchain

theorem chain_drop_false (wc : Char → Bool) :
    ∀ (ts : List (List Char)), TokChain wc false ts →
      ∀ n, TokChain wc false (ts.drop n) := by
  intro ts
  induction ts with
  | nil => intro _ n; simp only [List.drop_nil]; exact TokChain.nil false
  | cons t rest ih =>
    intro h n
    cases n with
    | zero => exact h
    | succ n =>
      simp only [List.drop_succ_cons]
      cases h with
      | last _ _ hshape hhead =>
        simp only [List.drop_nil]
        exact TokChain.nil false
      | cons _ _ _ hmid hhead hne hchain => exact ih hchain n

theorem chain_drop (wc : Char → Bool) (ts : List (List Char)) (first : Bool) (n : Nat)
    (h : TokChain wc first ts) : ∃ f, TokChain wc f (ts.drop n) := by
  cases n with
  | zero => exact ⟨first, h⟩
  | succ n =>
    cases h with
    | nil => exact ⟨false, by simp only [List.drop_nil]; exact TokChain.nil false⟩
    | last _ t hshape hhead =>
      refine ⟨false, ?_⟩
      simp only [List.drop_succ_cons, List.drop_nil]
      exact TokChain.nil false
    | cons _ t rest hmid hhead hne hchain =>
      refine ⟨false, ?_⟩
      simp only [List.drop_succ_cons]
      exact chain_drop_false wc rest hchain n

theorem chain_flatten_headW (wc : Char → Bool) :
    ∀ (ts : List (List Char)), TokChain wc false ts → ts ≠ [] →
      HeadW wc ts.flatten := by
  intro ts h hne
  cases h with
  | nil => exact absurd rfl hne
  | last _ t hshape hhead =>
    obtain ⟨c, u, ht, hc⟩ := hhead rfl
    refine ⟨c, u ++ [], ?_, hc⟩
    simp [ht]
  | cons _ t rest hmid hhead hne2 hchain =>
    obtain ⟨c, u, ht, hc⟩ := hhead rfl
    refine ⟨c, u ++ rest.flatten, ?_, hc⟩
    simp [ht]

theorem tokenize_flatten (wc : Char → Bool) :
    ∀ (ts : List (List Char)) (first : Bool), TokChain wc first ts →
      tokenize wc ts.flatten = ts := by
  intro ts
  induction ts with
  | nil => intro first _; simp only [List.flatten_nil]; exact tokenize_nil wc
  | cons t rest ih =>
    intro first h
    cases h with
    | last _ _ hshape _ =>
      simp only [List.flatten_cons, List.flatten_nil, List.append_nil]
      exact tokenize_single wc t hshape
    | cons _ _ _ hmid hhead hne hchain =>
      simp only [List.flatten_cons]
      rw [tokenize_cons_mid wc t rest.flatten hmid
        (chain_flatten_headW wc rest hchain hne)]
      rw [ih false hchain]

/-- **C5.** For every word-character predicate, every text and all
`shift`, `k` with `shift + k ≤ count_words text`, the segment returned by
`cut_segment text shift k` contains exactly `k` words under the word
definition of `count_words`; in particular
`count_words (cut_segment text 0 k) = k` for every `k ≤ count_words text`. -/
theorem cut_segment_word_count (wc : Char → Bool) (text : List Char) (shift k : Nat)
    (h : shift + k ≤ count_words wc text) :
    count_words wc (cut_segment wc text shift k) = k := by
  unfold count_words at h ⊢
  unfold cut_segment
  obtain ⟨f, hchain⟩ := chain_drop wc (tokenize wc text) true shift
    (tokenize_chain wc text.length text (le_refl _)).1
  have hchain2 := chain_take wc _ f k hchain
  rw [tokenize_flatten wc _ f hchain2]
  rw [List.length_take, List.length_drop]
  omega

/-- Witness for C5: `wc` is ASCII letters, `text = "One, two three!"`,
`shift = 1`, `k = 2`. -/
theorem cut_segment_word_count_witness :
    1 + 2 ≤ count_words (fun c => c.isAlpha) "One, two three!".toList ∧
    count_words (fun c => c.isAlpha)
      (cut_segment (fun c => c.isAlpha) "One, two three!".toList 1 2) = 2 :=
  ⟨by decide,
    cut_segment_word_count (fun c => c.isAlpha) "One, two three!".toList 1 2 (by decide)⟩

theorem strip_segment_dropWhile (wc : Char → Bool) (s : List Char) :
    ∃ x : List Char, strip_segment wc s = x.dropWhile (fun c => !wc c) := ⟨_, rfl⟩

theorem strip_segment_head (wc : Char → Bool) (s : List Char) :
    strip_segment wc s = [] ∨ ∃ c t, strip_segment wc s = c :: t ∧ wc c = true := by
  obtain ⟨x, hx⟩ := strip_segment_dropWhile wc s
  rw [hx]
  rcases hdw : x.dropWhile (fun c => !wc c) with _ | ⟨c, t⟩
  · left; rfl
  · right
    refine ⟨c, t, rfl, ?_⟩
    have := dropWhile_head_false (fun c => !wc c) x c t hdw
    simpa using this

theorem cutLoop_mem (wc : Char → Bool) (perms : Nat → List Nat) :
    ∀ (toks : List (List Char)) (sampleIdx pIdx : Nat) (cur : List (List Char)),
      ∀ o ∈ cutLoop wc perms toks sampleIdx pIdx cur, ∃ x, o = strip_segment wc x := by
  intro toks
  induction toks with
  | nil =>
    intro si pi cur o ho
    simp only [cutLoop] at ho
    split at ho
    · simp at ho
    · rcases List.mem_singleton.mp ho with h
      exact ⟨_, h⟩
  | cons t rest ih =>
    intro si pi cur o ho
    simp only [cutLoop] at ho
    split at ho
    · split at ho
      · rcases List.mem_cons.mp ho with h | h
        · exact ⟨_, h⟩
        · exact ih (si + 1) 0 [] o h
      · rcases List.mem_cons.mp ho with h | h
        · exact ⟨_, h⟩
        · exact ih si (pi + 1) [] o h
    · exact ih si pi (t :: cur) o ho

/-- **C10.** `strip_segment` returns either the empty string or a string
beginning with a word character, and consequently every training segment line
written by `cut_and_save_one_pass` (each cut passes through `strip_segment`)
never starts with punctuation or whitespace. -/
theorem strip_segment_starts_with_word (wc : Char → Bool) :
    (∀ s : List Char, strip_segment wc s = [] ∨
      ∃ c t, strip_segment wc s = c :: t ∧ wc c = true) ∧
    (∀ (text : List Char) (numWordsInSegments : List Nat) (perms : Nat → List Nat)
        (shift : Nat) (outs : List (List Char)),
      cut_and_save_one_pass wc text numWordsInSegments perms shift = .ok outs →
      ∀ o ∈ outs, o = [] ∨ ∃ c t, o = c :: t ∧ wc c = true) := by
  refine ⟨strip_segment_head wc, ?_⟩
  intro text nws perms shift outs h o ho
  unfold cut_and_save_one_pass at h
  split at h
  · exact Option.noConfusion (congrArg (fun x => match x with
      | Except.ok _ => Option.none (α := Unit)
      | Except.error _ => Option.some ()) h)
  · rw [Except.ok.injEq] at h
    subst h
    obtain ⟨x, hx⟩ := cutLoop_mem wc perms ((tokenize wc text).drop shift) 0 0 [] o ho
    rw [hx]
    exact strip_segment_head wc x

/-- Witness for C10's `cut_and_save_one_pass` part: two alphabetic words with
segment-length list `[1]`. -/
theorem strip_segment_starts_with_word_witness :
    cut_and_save_one_pass (fun c => c.isAlpha) "ab cd".toList [1] (fun _ => [1]) 0
        = .ok ["ab".toList, "cd".toList] ∧
    (∀ o ∈ (["ab".toList, "cd".toList] : List (List Char)),
      o = [] ∨ ∃ c t, o = c :: t ∧ (fun c : Char => c.isAlpha) c = true) :=
  ⟨by rfl,
    (strip_segment_starts_with_word (fun c => c.isAlpha)).2 "ab cd".toList [1]
      (fun _ => [1]) 0 ["ab".toList, "cd".toList] (by rfl)⟩

/-- **C4 (amended).** Documents whose text is empty after cleaning are dropped
by `clean_small_dataset` (used by `preprocess_europarl` and the other
small-corpus extractors), for every choice of the cleaning collaborators; but
`preprocess_tatoeba` (and likewise `PreprocessUNWorker`) builds its document
record and passes it to the shard writer unconditionally, with no emptiness
check, so an empty-text document can be written
(`preprocess_tatoeba_empty_text_cex`). -/
theorem clean_drops_empty_but_tatoeba_writes_unconditionally
    (σ : Type) (fns : CleanFns σ) :
    (∀ (st : σ) (docs : List (Nat × Doc)),
      ∀ p ∈ clean_small_dataset fns st docs, p.2.text ≠ []) ∧
    (∀ (lines : List (List Char)) (src : String) (i f : Nat),
      preprocess_tatoeba lines src i f =
        ((i, { text := tatoebaText lines, title := "tatoeba".toList, source := src,
               start_line := 0, end_line := lines.length }), (i, f))) := by
  constructor
  · intro st docs
    induction docs generalizing st with
    | nil => intro p hp; simp [clean_small_dataset] at hp
    | cons d rest ih =>
      intro p hp
      obtain ⟨i, dd⟩ := d
      simp only [clean_small_dataset] at hp
      rcases hc : cleanDoc fns st dd.text with ⟨t, st'⟩
      rw [hc] at hp
      simp only at hp
      split at hp
      · exact ih st' p hp
      · rename_i hne
        rcases List.mem_cons.mp hp with h | h
        · rw [h]
          simp only
          intro hc2
          rw [hc2] at hne
          simp at hne
        · exact ih st' p h
  · intro lines src i f
    rfl

/-- Counterexample to C4 as stated: a tatoeba input consisting of the single
line `a b` (only two whitespace-separated fields, so nothing remains after
dropping the first two).  `preprocess_tatoeba` still passes the document — with
empty text — to the shard writer and returns its id in the map. -/
theorem preprocess_tatoeba_empty_text_cex :
    preprocess_tatoeba ["a b".toList] "f" 0 0
      = ((0, { text := [], title := "tatoeba".toList, source := "f",
               start_line := 0, end_line := 1 }), (0, 0)) := by
  rfl

/-- Witness for the amended C4: a one-document map with identity cleaners. -/
theorem clean_drops_empty_witness :
    ((0 : Nat), sampleDoc) ∈ clean_small_dataset idCleanFns () [(0, sampleDoc)] ∧
    sampleDoc.text ≠ [] :=
  ⟨List.mem_singleton.mpr rfl,
    (clean_drops_empty_but_tatoeba_writes_unconditionally Unit idCleanFns).1 ()
      [(0, sampleDoc)] (0, sampleDoc) (List.mem_singleton.mpr rfl)⟩

theorem ep_step_first (parse : List Char → Option (List Char × List Char))
    (keep : List Char → Bool) (lstrip : List Char → List Char) (src : String)
    (st : EpState) (i : Nat) (line g1 g2 : List Char)
    (hp : parse line = some (g1, g2)) (hk : keep (pyStrip g1) = true)
    (hlt : st.lastTitle = none)
    (hfree : docsContains st.docs st.docId = false) :
    preprocess_europarl_step parse keep lstrip src st i line
      = .ok ⟨st.docs ++ [(st.docId, mkEpDoc lstrip g1 g2 src i)], st.docId,
          some (europarlTitle g2)⟩ := by
  unfold preprocess_europarl_step
  rw [hp]
  simp only [hk, if_true, hlt, hfree]
  rfl

theorem ep_step_same (parse : List Char → Option (List Char × List Char))
    (keep : List Char → Bool) (lstrip : List Char → List Char) (src : String)
    (st : EpState) (i : Nat) (line g1 g2 : List Char) (T : List Char)
    (hp : parse line = some (g1, g2)) (hk : keep (pyStrip g1) = true)
    (hlt : st.lastTitle = some T) (hT : europarlTitle g2 = T)
    (hmem : docsContains st.docs st.docId = true) :
    preprocess_europarl_step parse keep lstrip src st i line
      = .ok ⟨docsAppendText st.docs st.docId (pyStrip (lstrip (pyStrip g1)) ++ ['\n']),
          st.docId, some T⟩ := by
  unfold preprocess_europarl_step
  rw [hp]
  simp only [hk, if_true, hlt, hT]
  rw [if_neg (show ¬ (T ≠ T) from fun h => h rfl)]
  simp only [hmem, if_true]

theorem ep_step_newtitle (parse : List Char → Option (List Char × List Char))
    (keep : List Char → Bool) (lstrip : List Char → List Char) (src : String)
    (st : EpState) (i : Nat) (line g1 g2 : List Char) (T : List Char)
    (hp : parse line = some (g1, g2)) (hk : keep (pyStrip g1) = true)
    (hlt : st.lastTitle = some T) (hT : europarlTitle g2 ≠ T)
    (hfree : docsContains (docsSetEndLine st.docs st.docId i) (st.docId + 1) = false) :
    preprocess_europarl_step parse keep lstrip src st i line
      = .ok ⟨docsSetEndLine st.docs st.docId i
            ++ [(st.docId + 1, mkEpDoc lstrip g1 g2 src i)],
          st.docId + 1, some (europarlTitle g2)⟩ := by
  unfold preprocess_europarl_step
  rw [hp]
  simp only [hk, if_true, hlt]
  rw [if_pos (show T ≠ europarlTitle g2 from fun h => hT h.symm)]
  simp only [hfree]
  rfl

/-- A europarl document text is never empty: it ends in a newline. -/
theorem epText_isEmpty (lstrip : List Char → List Char) (a b : List Char) :
    (epText lstrip a b).isEmpty = false := by
  simp [epText]

/-- **C6.** For a well-formed Europarl input of 3 sessions of 2 lines each —
every line parsed by the `EUROPARL_LINE` regex (`parse`) into a text group
and a session group, every line passing the quality filter (`keep`), the two
lines of a session carrying the same session title, consecutive sessions
carrying distinct titles, and the cleaning collaborators leaving the
assembled texts unchanged — `preprocess_europarl` with starting document ID
`start` emits exactly 3 documents with the consecutive IDs `start`,
`start + 1`, `start + 2`, each containing the 2 cleaned newline-terminated
lines of its session, titled `europarl_` followed by the session identifier,
spanning lines (0,2), (2,4), (4,6), and maps each ID to the shard file. -/
theorem preprocess_europarl_three_sessions {σ : Type}
    (parse : List Char → Option (List Char × List Char))
    (keep : List Char → Bool) (lstrip : List Char → List Char) (src : String)
    (fns : CleanFns σ) (st0 : σ)
    (l00 l01 l10 l11 l20 l21 g00 g01 g10 g11 g20 g21 : List Char)
    (s00 s01 s10 s11 s20 s21 : List Char) (start f : Nat)
    (hp00 : parse l00 = some (g00, s00)) (hp01 : parse l01 = some (g01, s01))
    (hp10 : parse l10 = some (g10, s10)) (hp11 : parse l11 = some (g11, s11))
    (hp20 : parse l20 = some (g20, s20)) (hp21 : parse l21 = some (g21, s21))
    (hk00 : keep (pyStrip g00) = true) (hk01 : keep (pyStrip g01) = true)
    (hk10 : keep (pyStrip g10) = true) (hk11 : keep (pyStrip g11) = true)
    (hk20 : keep (pyStrip g20) = true) (hk21 : keep (pyStrip g21) = true)
    (ht01 : europarlTitle s01 = europarlTitle s00)
    (ht11 : europarlTitle s11 = europarlTitle s10)
    (ht21 : europarlTitle s21 = europarlTitle s20)
    (hT01 : europarlTitle s10 ≠ europarlTitle s00)
    (hT12 : europarlTitle s20 ≠ europarlTitle s10)
    (hclean : ∀ (st : σ) (t : List Char), cleanDoc fns st t = (t, st)) :
    preprocess_europarl parse keep lstrip src fns st0
        [l00, l01, l10, l11, l20, l21] start f
      = .ok ([(start, ⟨epText lstrip g00 g01, europarlTitle s00, src, 0, 2⟩),
              (start + 1, ⟨epText lstrip g10 g11, europarlTitle s10, src, 2, 4⟩),
              (start + 2, ⟨epText lstrip g20 g21, europarlTitle s20, src, 4, 6⟩)],
             [(start, f), (start + 1, f), (start + 2, f)]) := by
  have e0 : preprocess_europarl_step parse keep lstrip src ⟨[], start, none⟩ 0 l00
      = .ok ⟨[(start, mkEpDoc lstrip g00 s00 src 0)], start,
          some (europarlTitle s00)⟩ := by
    rw [ep_step_first parse keep lstrip src ⟨[], start, none⟩ 0 l00 g00 s00
      hp00 hk00 rfl rfl]
    simp
  have e1 : preprocess_europarl_step parse keep lstrip src
        ⟨[(start, mkEpDoc lstrip g00 s00 src 0)], start,
          some (europarlTitle s00)⟩ 1 l01
      = .ok ⟨[(start, ⟨epText lstrip g00 g01, europarlTitle s00, src, 0, 0⟩)],
          start, some (europarlTitle s00)⟩ := by
    rw [ep_step_same parse keep lstrip src
      ⟨[(start, mkEpDoc lstrip g00 s00 src 0)], start, some (europarlTitle s00)⟩
      1 l01 g01 s01 (europarlTitle s00) hp01 hk01 rfl ht01
      (by simp [docsContains])]
    simp [docsAppendText, mkEpDoc, epText]
  have e2 : preprocess_europarl_step parse keep lstrip src
        ⟨[(start, ⟨epText lstrip g00 g01, europarlTitle s00, src, 0, 0⟩)],
          start, some (europarlTitle s00)⟩ 2 l10
      = .ok ⟨[(start, ⟨epText lstrip g00 g01, europarlTitle s00, src, 0, 2⟩),
            (start + 1, ⟨pyStrip (lstrip (pyStrip g10)) ++ ['\n'],
              europarlTitle s10, src, 2, 0⟩)],
          start + 1, some (europarlTitle s10)⟩ := by
    rw [ep_step_newtitle parse keep lstrip src
      ⟨[(start, ⟨epText lstrip g00 g01, europarlTitle s00, src, 0, 0⟩)],
        start, some (europarlTitle s00)⟩
      2 l10 g10 s10 (europarlTitle s00) hp10 hk10 rfl hT01
      (by simp [docsContains, docsSetEndLine])]
    simp [docsSetEndLine, mkEpDoc]
  have e3 : preprocess_europarl_step parse keep lstrip src
        ⟨[(start, ⟨epText lstrip g00 g01, europarlTitle s00, src, 0, 2⟩),
            (start + 1, ⟨pyStrip (lstrip (pyStrip g10)) ++ ['\n'],
              europarlTitle s10, src, 2, 0⟩)],
          start + 1, some (europarlTitle s10)⟩ 3 l11
      = .ok ⟨[(start, ⟨epText lstrip g00 g01, europarlTitle s00, src, 0, 2⟩),
            (start + 1, ⟨epText lstrip g10 g11, europarlTitle s10, src, 2, 0⟩)],
          start + 1, some (europarlTitle s10)⟩ := by
    rw [ep_step_same parse keep lstrip src
      ⟨[(start, ⟨epText lstrip g00 g01, europarlTitle s00, src, 0, 2⟩),
          (start + 1, ⟨pyStrip (lstrip (pyStrip g10)) ++ ['\n'],
            europarlTitle s10, src, 2, 0⟩)],
        start + 1, some (europarlTitle s10)⟩
      3 l11 g11 s11 (europarlTitle s10) hp11 hk11 rfl ht11
      (by simp [docsContains])]
    simp [docsAppendText, epText]
  have e4 : preprocess_europarl_step parse keep lstrip src
        ⟨[(start, ⟨epText lstrip g00 g01, europarlTitle s00, src, 0, 2⟩),
            (start + 1, ⟨epText lstrip g10 g11, europarlTitle s10, src, 2, 0⟩)],
          start + 1, some (europarlTitle s10)⟩ 4 l20
      = .ok ⟨[(start, ⟨epText lstrip g00 g01, europarlTitle s00, src, 0, 2⟩),
            (start + 1, ⟨epText lstrip g10 g11, europarlTitle s10, src, 2, 4⟩),
            (start + 2, ⟨pyStrip (lstrip (pyStrip g20)) ++ ['\n'],
              europarlTitle s20, src, 4, 0⟩)],
          start + 2, some (europarlTitle s20)⟩ := by
    rw [ep_step_newtitle parse keep lstrip src
      ⟨[(start, ⟨epText lstrip g00 g01, europarlTitle s00, src, 0, 2⟩),
          (start + 1, ⟨epText lstrip g10 g11, europarlTitle s10, src, 2, 0⟩)],
        start + 1, some (europarlTitle s10)⟩
      4 l20 g20 s20 (europarlTitle s10) hp20 hk20 rfl hT12
      (by simp [docsContains, docsSetEndLine]; omega)]
    simp [docsSetEndLine, mkEpDoc]
  have e5 : preprocess_europarl_step parse keep lstrip src
        ⟨[(start, ⟨epText lstrip g00 g01, europarlTitle s00, src, 0, 2⟩),
            (start + 1, ⟨epText lstrip g10 g11, europarlTitle s10, src, 2, 4⟩),
            (start + 2, ⟨pyStrip (lstrip (pyStrip g20)) ++ ['\n'],
              europarlTitle s20, src, 4, 0⟩)],
          start + 2, some (europarlTitle s20)⟩ 5 l21
      = .ok ⟨[(start, ⟨epText lstrip g00 g01, europarlTitle s00, src, 0, 2⟩),
            (start + 1, ⟨epText lstrip g10 g11, europarlTitle s10, src, 2, 4⟩),
            (start + 2, ⟨epText lstrip g20 g21, europarlTitle s20, src, 4, 0⟩)],
          start + 2, some (europarlTitle s20)⟩ := by
    rw [ep_step_same parse keep lstrip src
      ⟨[(start, ⟨epText lstrip g00 g01, europarlTitle s00, src, 0, 2⟩),
          (start + 1, ⟨epText lstrip g10 g11, europarlTitle s10, src, 2, 4⟩),
          (start + 2, ⟨pyStrip (lstrip (pyStrip g20)) ++ ['\n'],
            europarlTitle s20, src, 4, 0⟩)],
        start + 2, some (europarlTitle s20)⟩
      5 l21 g21 s21 (europarlTitle s20) hp21 hk21 rfl ht21
      (by simp [docsContains])]
    simp [docsAppendText, epText]
  have hloop : preprocess_europarl_loop parse keep lstrip src 0
        ⟨[], start, none⟩ [l00, l01, l10, l11, l20, l21]
      = .ok ⟨[(start, ⟨epText lstrip g00 g01, europarlTitle s00, src, 0, 2⟩),
            (start + 1, ⟨epText lstrip g10 g11, europarlTitle s10, src, 2, 4⟩),
            (start + 2, ⟨epText lstrip g20 g21, europarlTitle s20, src, 4, 0⟩)],
          start + 2, some (europarlTitle s20)⟩ := by
    simp [preprocess_europarl_loop, e0, e1, e2, e3, e4, e5]
  have hset : docsSetEndLine
      [(start, ⟨epText lstrip g00 g01, europarlTitle s00, src, 0, 2⟩),
       (start + 1, ⟨epText lstrip g10 g11, europarlTitle s10, src, 2, 4⟩),
       (start + 2, ⟨epText lstrip g20 g21, europarlTitle s20, src, 4, 0⟩)]
      (start + 2) 6
      = [(start, ⟨epText lstrip g00 g01, europarlTitle s00, src, 0, 2⟩),
         (start + 1, ⟨epText lstrip g10 g11, europarlTitle s10, src, 2, 4⟩),
         (start + 2, ⟨epText lstrip g20 g21, europarlTitle s20, src, 4, 6⟩)] := by
    simp [docsSetEndLine]
  have hclean3 : clean_small_dataset fns st0
      [(start, ⟨epText lstrip g00 g01, europarlTitle s00, src, 0, 2⟩),
       (start + 1, ⟨epText lstrip g10 g11, europarlTitle s10, src, 2, 4⟩),
       (start + 2, ⟨epText lstrip g20 g21, europarlTitle s20, src, 4, 6⟩)]
      = [(start, ⟨epText lstrip g00 g01, europarlTitle s00, src, 0, 2⟩),
         (start + 1, ⟨epText lstrip g10 g11, europarlTitle s10, src, 2, 4⟩),
         (start + 2, ⟨epText lstrip g20 g21, europarlTitle s20, src, 4, 6⟩)] := by
    simp [clean_small_dataset, hclean, epText_isEmpty]
  have hfinal : preprocess_europarl parse keep lstrip src fns st0
        [l00, l01, l10, l11, l20, l21] start f
      = .ok (clean_small_dataset fns st0 (docsSetEndLine
          [(start, ⟨epText lstrip g00 g01, europarlTitle s00, src, 0, 2⟩),
           (start + 1, ⟨epText lstrip g10 g11, europarlTitle s10, src, 2, 4⟩),
           (start + 2, ⟨epText lstrip g20 g21, europarlTitle s20, src, 4, 0⟩)]
          (start + 2) 6),
        (clean_small_dataset fns st0 (docsSetEndLine
          [(start, ⟨epText lstrip g00 g01, europarlTitle s00, src, 0, 2⟩),
           (start + 1, ⟨epText lstrip g10 g11, europarlTitle s10, src, 2, 4⟩),
           (start + 2, ⟨epText lstrip g20 g21, europarlTitle s20, src, 4, 0⟩)]
          (start + 2) 6)).map fun p => (p.1, f)) := by
    unfold preprocess_europarl
    rw [hloop]
    rfl
  rw [hfinal, hset, hclean3]
  simp

/-- Witness for C6: a concrete 6-line tab-separated europarl file with
sessions `A`, `B`, `C` and identity cleaning collaborators. -/
theorem preprocess_europarl_three_sessions_witness :
    preprocess_europarl (splitFirst ['\t']) (fun t => !t.isEmpty) id "ep.txt"
        idCleanFns ()
        ["Hello there .\tA".toList, "Nice day .\tA".toList,
         "Second session .\tB".toList, "It continues .\tB".toList,
         "Third part .\tC".toList, "Bye now .\tC".toList] 7 3
      = .ok ([(7, ⟨epText id "Hello there .".toList "Nice day .".toList,
                europarlTitle "A".toList, "ep.txt", 0, 2⟩),
              (7 + 1, ⟨epText id "Second session .".toList "It continues .".toList,
                europarlTitle "B".toList, "ep.txt", 2, 4⟩),
              (7 + 2, ⟨epText id "Third part .".toList "Bye now .".toList,
                europarlTitle "C".toList, "ep.txt", 4, 6⟩)],
             [(7, 3), (7 + 1, 3), (7 + 2, 3)]) :=
  preprocess_europarl_three_sessions (splitFirst ['\t']) (fun t => !t.isEmpty)
    id "ep.txt" idCleanFns ()
    "Hello there .\tA".toList "Nice day .\tA".toList
    "Second session .\tB".toList "It continues .\tB".toList
    "Third part .\tC".toList "Bye now .\tC".toList
    "Hello there .".toList "Nice day .".toList
    "Second session .".toList "It continues .".toList
    "Third part .".toList "Bye now .".toList
    "A".toList "A".toList "B".toList "B".toList "C".toList "C".toList 7 3
    (by decide) (by decide) (by decide) (by decide) (by decide) (by decide)
    (by decide) (by decide) (by decide) (by decide) (by decide) (by decide)
    rfl rfl rfl (by decide) (by decide) (fun st t => rfl)

theorem getLast?_eq_getD {α : Type} (l : List α) (d : α) (h : l ≠ []) :
    l.getLast? = some (l.getD (l.length - 1) d) := by
  have hlt : l.length - 1 < l.length := by
    cases l with
    | nil => exact absurd rfl h
    | cons a t => simp
  rw [List.getLast?_eq_getLast l h, List.getLast_eq_getElem,
    List.getD_eq_getElem l d hlt]

/-- Every iteration of the border loop appends exactly one border of the
form `(last_byte_border, last_byte_border + bytes)`, one character count and
one branch marker, and updates `last_byte_border` to the new border's end
exactly when the part exited through the `'<page'`-found branch. -/
theorem processPart_shape (content : List Char) (partSize : Nat)
    (st : GBState) :
    ∃ br cip β pos' total' rem',
      processPart content partSize st =
        ⟨pos',
          (if β = Branch.found then st.lastByteBorder + br
            else st.lastByteBorder),
          total', rem',
          st.byteBorders ++ [(st.lastByteBorder, st.lastByteBorder + br)],
          st.numCharactersInPart ++ [cip],
          st.branches ++ [β], st.i + 1⟩ := by
  obtain ⟨chars0, bytes0, pos1, hm⟩ : ∃ a b c,
      move_by_n_characters_in_file content st.pos
        ((partSize * (st.i + 1) : Int) - st.totalCharactersRead) BUFFER_SIZE
      = (a, b, c) := ⟨_, _, _, rfl⟩
  simp only [processPart, hm]
  by_cases hc : ((chars0 + st.remainder.length : Nat) : Int)
      < (partSize * (st.i + 1) : Int) - st.totalCharactersRead
  · rw [if_pos hc]
    exact ⟨bytes0 + utf8Len st.remainder, chars0 + st.remainder.length,
      Branch.shortRead, pos1, st.totalCharactersRead
        + (chars0 + st.remainder.length), st.remainder, by simp⟩
  · rw [if_neg hc]
    obtain ⟨r, hs⟩ : ∃ r, scanGo content (content.length + 2)
        (pos1 + (fdReadline content pos1).length)
        (chars0 + st.remainder.length) (bytes0 + utf8Len st.remainder)
        (st.totalCharactersRead + (chars0 + st.remainder.length)
          + (fdReadline content pos1).length)
        (fdReadline content pos1) = r := ⟨_, rfl⟩
    rcases r with ⟨pos3, cip3, br3, total3, fnd⟩
    rw [hs]
    cases fnd with
    | some rem =>
      exact ⟨br3, cip3, Branch.found, pos3, total3, rem, by simp⟩
    | none =>
      exact ⟨br3, cip3, Branch.eofScan, pos3, total3, st.remainder, by simp⟩

theorem GBInv_processPart (content : List Char) (partSize : Nat)
    (st : GBState) (h : GBInv st) : GBInv (processPart content partSize st) := by
  obtain ⟨br, cip, β, pos', total', rem', hpp⟩ :=
    processPart_shape content partSize st
  obtain ⟨hlen1, hlen2, hhead, hnil, hpending, hchain⟩ := h
  rw [hpp]
  refine ⟨by simp [hlen1], by simp [hlen2], ?_, ?_, ?_, ?_⟩
  · intro b hb
    cases hbb : st.byteBorders with
    | nil =>
      rw [hbb] at hb
      simp only [List.nil_append, List.head?_cons, Option.some.injEq] at hb
      rw [← hb, hnil hbb]
    | cons a t =>
      rw [hbb] at hb
      simp only [List.cons_append, List.head?_cons, Option.some.injEq] at hb
      rw [← hb]
      exact hhead a (by rw [hbb]; rfl)
  · intro hc
    exact absurd hc (by simp)
  · intro b β' hb hβ hfound
    rw [List.getLast?_concat] at hb hβ
    rw [Option.some.injEq] at hb hβ
    rw [← hb, ← hβ] at *
    rw [if_pos hfound]
  · intro j hj hbr
    by_cases hjlt : j + 1 < st.byteBorders.length
    · have hbj : j < st.branches.length := by omega
      rw [List.getD_append _ _ _ _ hjlt, List.getD_append _ _ _ _ (by omega)]
      rw [List.getD_append _ _ _ _ hbj] at hbr
      exact hchain j hjlt hbr
    · have hlen : j + 1 < st.byteBorders.length + 1 := by
        have := hj
        simp only [List.length_append, List.length_cons, List.length_nil]
          at this
        omega
      have hj1 : j + 1 = st.byteBorders.length := by omega
      have hne : st.byteBorders ≠ [] := by
        intro hc
        rw [hc] at hj1
        simp at hj1
      have hbne : st.branches ≠ [] := by
        intro hc
        have hz : st.byteBorders.length = 0 := by rw [hlen1, hc]; rfl
        omega
      have hbrj : st.branches.getD j Branch.eofScan = Branch.found := by
        rw [List.getD_append _ _ _ _ (by omega)] at hbr
        exact hbr
      have hlast : st.lastByteBorder = (st.byteBorders.getD j (0, 0)).2 := by
        refine hpending (st.byteBorders.getD j (0, 0))
          (st.branches.getD j Branch.eofScan) ?_ ?_ hbrj
        · rw [getLast?_eq_getD st.byteBorders (0, 0) hne]
          rw [show st.byteBorders.length - 1 = j by omega]
        · rw [getLast?_eq_getD st.branches Branch.eofScan hbne]
          rw [show st.branches.length - 1 = j by omega]
      have hgy : (st.byteBorders
            ++ [(st.lastByteBorder, st.lastByteBorder + br)]).getD (j + 1)
            (0, 0)
          = (st.lastByteBorder, st.lastByteBorder + br) := by
        rw [hj1]
        simp [List.getD_append_right, Nat.sub_self]
      rw [hgy, List.getD_append _ _ _ _ (by omega)]
      exact hlast

theorem GBInv_loop (content : List Char) (partSize : Nat) :
    ∀ (rem : Nat) (st : GBState), GBInv st →
      GBInv (getBordersLoop content partSize rem st) := by
  intro rem
  induction rem with
  | zero => intro st h; exact h
  | succ n ih =>
    intro st h
    exact ih (processPart content partSize st) (GBInv_processPart _ _ _ h)

theorem getBordersLoop_lengths (content : List Char) (partSize : Nat) :
    ∀ (rem : Nat) (st : GBState),
      (getBordersLoop content partSize rem st).byteBorders.length
          = st.byteBorders.length + rem ∧
        (getBordersLoop content partSize rem st).numCharactersInPart.length
          = st.numCharactersInPart.length + rem ∧
        (getBordersLoop content partSize rem st).branches.length
          = st.branches.length + rem := by
  intro rem
  induction rem with
  | zero => intro st; exact ⟨rfl, rfl, rfl⟩
  | succ n ih =>
    intro st
    obtain ⟨br, cip, β, pos', total', rem', hpp⟩ :=
      processPart_shape content partSize st
    obtain ⟨hb, hc2, hbr⟩ := ih (processPart content partSize st)
    have hstep : getBordersLoop content partSize (n + 1) st
        = getBordersLoop content partSize n (processPart content partSize st) :=
      rfl
    rw [hpp] at hb hc2 hbr
    simp only [List.length_append, List.length_cons, List.length_nil]
      at hb hc2 hbr
    rw [hstep, hpp]
    refine ⟨?_, ?_, ?_⟩
    · rw [hb]; omega
    · rw [hc2]; omega
    · rw [hbr]; omega

theorem GBInv_initial : GBInv ⟨0, 0, 0, [], [], [], [], 0⟩ := by
  refine ⟨rfl, rfl, ?_, fun _ => rfl, ?_, ?_⟩
  · intro b hb; cases hb
  · intro b β hb; cases hb
  · intro j hj; simp at hj

theorem utf8Len_append (a b : List Char) :
    utf8Len (a ++ b) = utf8Len a + utf8Len b := by
  simp [utf8Len]

theorem utf8Len_nil : utf8Len [] = 0 := rfl

theorem utf8Len_pos (l : List Char) (h : l ≠ []) : 1 ≤ utf8Len l := by
  cases l with
  | nil => exact absurd rfl h
  | cons c t =>
    have hc := Char.utf8Size_pos c
    simp only [utf8Len, List.map_cons, List.sum_cons]
    omega

theorem take_min {α : Type} (l : List α) (n : Nat) :
    l.take n = l.take (min n l.length) := by
  rcases Nat.le_total n l.length with h | h
  · rw [Nat.min_eq_left h]
  · rw [Nat.min_eq_right h, List.take_of_length_le h,
      List.take_of_length_le (Nat.le_refl _)]

theorem extractC_eq (content : List Char) (a b : Nat) :
    extractC content a b = (content.drop a).take (b - a) := by
  simp [extractC, List.drop_take]

theorem extractC_length (content : List Char) (a b : Nat)
    (h : b ≤ content.length) :
    (extractC content a b).length = b - a := by
  simp [extractC, List.length_drop, List.length_take]
  omega

theorem extractC_self (content : List Char) (a : Nat) :
    extractC content a a = [] := by
  rw [extractC_eq]
  simp

theorem extractC_append (content : List Char) (a m b : Nat)
    (h1 : a ≤ m) (h2 : m ≤ b) :
    extractC content a m ++ extractC content m b = extractC content a b := by
  have hdm : (content.drop a).drop (m - a) = content.drop m := by
    rw [List.drop_drop]
    congr 1
    omega
  rw [extractC_eq, extractC_eq, extractC_eq, ← hdm,
    show b - a = (m - a) + (b - m) by omega, List.take_add]

theorem byteAt_add (content : List Char) (a b : Nat) (h : a ≤ b) :
    byteAt content b = byteAt content a + utf8Len (extractC content a b) := by
  unfold byteAt
  have htt : (content.take b).take a = content.take a := by
    rw [List.take_take, Nat.min_eq_left h]
  have hsplit : content.take b
      = content.take a ++ (content.take b).drop a := by
    rw [← htt, List.take_append_drop]
  rw [hsplit, utf8Len_append]
  rfl

theorem byteAt_mono (content : List Char) (a b : Nat) (h : a ≤ b) :
    byteAt content a ≤ byteAt content b := by
  rw [byteAt_add content a b h]
  omega

theorem byteAt_strict (content : List Char) (a b : Nat) (h1 : a < b)
    (h2 : b ≤ content.length) :
    byteAt content a < byteAt content b := by
  rw [byteAt_add content a b (Nat.le_of_lt h1)]
  have hne : extractC content a b ≠ [] := by
    intro hc
    have := extractC_length content a b h2
    rw [hc] at this
    simp at this
    omega
  have := utf8Len_pos _ hne
  omega

theorem markerAt_le (content : List Char) (q : Nat) (h : markerAt content q) :
    q + 5 ≤ content.length := by
  unfold markerAt at h
  rw [List.isPrefixOf_iff_prefix] at h
  have hlen := h.length_le
  simp only [List.length_drop] at hlen
  have h5 : pageMarker.length = 5 := rfl
  rw [h5] at hlen
  by_cases hq : q ≤ content.length
  · omega
  · exfalso
    rw [List.drop_eq_nil_of_le (by omega)] at h
    have := h.length_le
    rw [h5] at this
    simp at this

theorem extractC_marker (content : List Char) (q : Nat)
    (h : markerAt content q) :
    extractC content q (q + 5) = pageMarker := by
  unfold markerAt at h
  rw [List.isPrefixOf_iff_prefix] at h
  obtain ⟨t, ht⟩ := h
  rw [extractC_eq, ← ht, Nat.add_sub_cancel_left]
  rw [show (5 : Nat) = pageMarker.length from rfl, List.take_left]

theorem byteAt_marker_end (content : List Char) (q : Nat)
    (h : markerAt content q) :
    byteAt content (q + 5) = byteAt content q + 5 := by
  rw [byteAt_add content q (q + 5) (by omega), extractC_marker content q h]
  rfl

theorem getD_marker (content : List Char) (q i : Nat) (d : Char)
    (h : markerAt content q) (hi : i < 5) :
    content.getD (q + i) d = pageMarker.getD i d := by
  unfold markerAt at h
  rw [List.isPrefixOf_iff_prefix] at h
  obtain ⟨t, ht⟩ := h
  have h1 : content.getD (q + i) d = (content.drop q).getD i d := by
    rw [List.getD_eq_getElem?_getD, List.getD_eq_getElem?_getD,
      List.getElem?_drop]
  rw [h1, ← ht, List.getD_eq_getElem?_getD, List.getD_eq_getElem?_getD,
    List.getElem?_append_left (show i < pageMarker.length from hi)]

theorem marker_no_overlap (content : List Char) (q p : Nat)
    (hq : markerAt content q) (hp : markerAt content p)
    (h1 : q < p) (h2 : p < q + 5) : False := by
  have hα := getD_marker content q (p - q) ' ' hq (by omega)
  have hβ := getD_marker content p 0 ' ' hp (by decide)
  rw [show q + (p - q) = p by omega] at hα
  rw [Nat.add_zero] at hβ
  rw [hβ] at hα
  have hcases : p - q = 1 ∨ p - q = 2 ∨ p - q = 3 ∨ p - q = 4 := by omega
  rcases hcases with h | h | h | h <;> rw [h] at hα <;>
    exact absurd hα (by decide)

theorem marker_no_newline (content : List Char) (q i : Nat)
    (hq : markerAt content q) (hi : i < 5) :
    content.getD (q + i) ' ' ≠ '\n' := by
  rw [getD_marker content q i ' ' hq hi]
  have hall : ∀ j, j < 5 → pageMarker.getD j ' ' ≠ '\n' := by decide
  exact hall i hi

/-- An `okBoundary` byte offset never lies strictly inside a `'<page'`
marker occurrence. -/
theorem okBoundary_not_inside (content : List Char) (b q : Nat)
    (h : okBoundary content b) (hq : markerAt content q) :
    ¬ (byteAt content q < b ∧ b < byteAt content q + 5) := by
  rintro ⟨hlt1, hlt2⟩
  obtain ⟨p, hple, rfl, hgood⟩ := h
  have h5 := markerAt_le content q hq
  have hbq5 := byteAt_marker_end content q hq
  have hqp : q < p := by
    by_contra hc
    exact absurd hlt1 (Nat.not_lt.mpr (byteAt_mono content p q (by omega)))
  have hpq5 : p < q + 5 := by
    by_contra hc
    have := byteAt_mono content (q + 5) p (by omega)
    omega
  rcases hgood with h0 | hlen | hnl | hm
  · omega
  · omega
  · have := marker_no_newline content q (p - 1 - q) hq (by omega)
    rw [show q + (p - 1 - q) = p - 1 by omega] at this
    exact this hnl
  · exact marker_no_overlap content q p hq hm hqp hpq5

theorem extractC_getD (content : List Char) (a b i : Nat) (d : Char)
    (h1 : i < b - a) :
    (extractC content a b).getD i d = content.getD (a + i) d := by
  rw [extractC_eq, List.getD_eq_getElem?_getD, List.getD_eq_getElem?_getD,
    List.getElem?_take_of_lt h1, List.getElem?_drop]

theorem extractC_take (content : List Char) (a b i : Nat) (h : i ≤ b - a) :
    (extractC content a b).take i = extractC content a (a + i) := by
  rw [extractC_eq, extractC_eq, List.take_take, Nat.min_eq_left h,
    Nat.add_sub_cancel_left]

theorem extractC_drop (content : List Char) (a b i : Nat) :
    (extractC content a b).drop i = extractC content (a + i) b := by
  unfold extractC
  rw [List.drop_drop]

theorem extractC_prefix_drop (content : List Char) (a b : Nat) :
    extractC content a b <+: content.drop a := by
  rw [extractC_eq]
  exact List.take_prefix _ _

theorem takeLine_prefix : ∀ l : List Char, ∃ r, l = takeLine l ++ r := by
  intro l
  induction l with
  | nil => exact ⟨[], rfl⟩
  | cons c cs ih =>
    by_cases hc : c = '\n'
    · refine ⟨cs, ?_⟩
      simp [takeLine, hc]
    · obtain ⟨r, hr⟩ := ih
      refine ⟨r, ?_⟩
      simp only [takeLine, if_neg hc, List.cons_append]
      rw [← hr]

theorem takeLine_eq_nil (l : List Char) : takeLine l = [] ↔ l = [] := by
  cases l with
  | nil => simp [takeLine]
  | cons c cs =>
    simp only [takeLine]
    constructor
    · intro h
      split at h <;> cases h
    · intro h
      cases h

theorem takeLine_close : ∀ l : List Char,
    takeLine l = l ∨ (takeLine l).getLast? = some '\n' := by
  intro l
  induction l with
  | nil => exact Or.inl rfl
  | cons c cs ih =>
    by_cases hc : c = '\n'
    · right
      simp [takeLine, hc]
    · rcases ih with h | h
      · left
        simp [takeLine, if_neg hc, h]
      · right
        cases htl : takeLine cs with
        | nil =>
          rw [htl] at h
          cases h
        | cons x xs =>
          rw [htl] at h
          simp only [takeLine, if_neg hc, htl, List.getLast?_cons_cons]
          exact h

/-- `f.readline()` facts: the line is the adjacent slice of the content at
the current position; the new position stays in the file; the line is empty
iff the position is at EOF; a nonempty line ends at EOF or just after a
newline. -/
theorem fdReadline_spec (content : List Char) (pos : Nat)
    (hpos : pos ≤ content.length) :
    fdReadline content pos
        = extractC content pos (pos + (fdReadline content pos).length) ∧
      pos + (fdReadline content pos).length ≤ content.length ∧
      (fdReadline content pos = [] ↔ content.length ≤ pos) ∧
      (fdReadline content pos ≠ [] →
        lineEnd content (pos + (fdReadline content pos).length)) := by
  obtain ⟨r, hr⟩ := takeLine_prefix (content.drop pos)
  have hL : (fdReadline content pos).length ≤ content.length - pos := by
    have := congrArg List.length hr
    simp only [List.length_drop, List.length_append] at this
    unfold fdReadline
    omega
  have hslice : fdReadline content pos
      = extractC content pos (pos + (fdReadline content pos).length) := by
    rw [extractC_eq, Nat.add_sub_cancel_left]
    unfold fdReadline
    generalize takeLine (content.drop pos) = t at hr ⊢
    rw [hr, List.take_left]
  refine ⟨hslice, by omega, ?_, ?_⟩
  · unfold fdReadline
    rw [takeLine_eq_nil, List.drop_eq_nil_iff]
  · intro hne
    rcases takeLine_close (content.drop pos) with h | h
    · left
      have := congrArg List.length h
      simp only [List.length_drop] at this
      unfold fdReadline
      omega
    · right
      have hnefd : fdReadline content pos ≠ [] := hne
      set L := (fdReadline content pos).length with hLdef
      have hL1 : 1 ≤ L := by
        rw [hLdef]
        cases hfd : fdReadline content pos with
        | nil => exact absurd hfd hnefd
        | cons x xs => simp
      have hlast : (fdReadline content pos).getLast?
          = some ((fdReadline content pos).getD (L - 1) ' ') :=
        getLast?_eq_getD _ ' ' hnefd
      have hgd : (fdReadline content pos).getD (L - 1) ' '
          = content.getD (pos + (L - 1)) ' ' := by
        rw [hslice]
        rw [extractC_getD content pos (pos + L) (L - 1) ' ' (by omega)]
      have hval : content.getD (pos + (L - 1)) ' ' = '\n' := by
        have : some ((fdReadline content pos).getD (L - 1) ' ')
            = some '\n' := by
          rw [← hlast]
          exact h
        rw [Option.some.injEq] at this
        rw [← hgd] at *
        exact this
      rw [show pos + L - 1 = pos + (L - 1) by omega]
      exact hval

theorem findSub_some (pat : List Char) : ∀ (l : List Char) (idx : Nat),
    findSub pat l = some idx →
      pat.isPrefixOf (l.drop idx) = true ∧ idx ≤ l.length := by
  intro l
  induction l with
  | nil =>
    intro idx h
    unfold findSub at h
    split at h
    · rw [Option.some.injEq] at h
      subst h
      rename_i hp
      constructor
      · rw [List.isEmpty_iff] at hp
        subst hp
        rfl
      · exact Nat.le_refl _
    · cases h
  | cons c cs ih =>
    intro idx h
    unfold findSub at h
    split at h
    · rw [Option.some.injEq] at h
      subst h
      rename_i hp
      exact ⟨hp, by simp⟩
    · rw [Option.map_eq_some'] at h
      obtain ⟨j, hj, hidx⟩ := h
      obtain ⟨h1, h2⟩ := ih j hj
      subst hidx
      refine ⟨?_, by simp; omega⟩
      rw [List.drop_succ_cons]
      exact h1

theorem moveGo_spec (content : List Char) (bs : Nat) (hbs : 1 ≤ bs)
    (n : Int) :
    ∀ (fuel pos cr br : Nat), (n - cr).toNat < fuel →
      moveGo content bs n fuel pos cr br
        = (cr + min (n - cr).toNat (content.length - pos),
           br + utf8Len ((content.drop pos).take
             (min (n - cr).toNat (content.length - pos))),
           pos + min (n - cr).toNat (content.length - pos)) := by
  intro fuel
  induction fuel with
  | zero =>
    intro pos cr br h
    exact absurd h (Nat.not_lt_zero _)
  | succ f ih =>
    intro pos cr br h
    simp only [moveGo, fdRead]
    by_cases hle : n ≤ (cr : Int)
    · rw [if_pos hle]
      have h0 : (n - cr).toNat = 0 := by omega
      rw [h0]
      simp [utf8Len]
    · rw [if_neg hle]
      have ha1 : 1 ≤ min bs (n - cr).toNat := by omega
      by_cases hemp : ((content.drop pos).take (min bs (n - cr).toNat)).isEmpty
      · rw [if_pos hemp]
        rw [List.isEmpty_iff, List.take_eq_nil_iff] at hemp
        have hlen0 : content.length - pos = 0 := by
          rcases hemp with h1 | h1
          · omega
          · rw [List.drop_eq_nil_iff] at h1
            omega
        have hdrop : content.drop pos = [] := by
          rw [List.drop_eq_nil_iff]
          omega
        rw [hlen0, Nat.min_zero, hdrop]
        simp [utf8Len]
      · rw [if_neg hemp]
        have hblen : ((content.drop pos).take (min bs (n - cr).toNat)).length
            = min (min bs (n - cr).toNat) (content.length - pos) := by
          rw [List.length_take, List.length_drop]
        have hbpos :
            1 ≤ ((content.drop pos).take (min bs (n - cr).toNat)).length := by
          rcases Nat.eq_zero_or_pos
            ((content.drop pos).take (min bs (n - cr).toNat)).length with
            h1 | h1
          · rw [List.length_eq_zero] at h1
            rw [← List.isEmpty_iff] at h1
            exact absurd h1 hemp
          · exact h1
        set b := ((content.drop pos).take (min bs (n - cr).toNat)).length
          with hbdef
        have hrec := ih (pos + b) (cr + b) (br + utf8Len
          ((content.drop pos).take (min bs (n - cr).toNat))) (by omega)
        have hbuf : (content.drop pos).take (min bs (n - cr).toNat)
            = (content.drop pos).take b := by
          conv_lhs => rw [take_min]
          rw [List.length_drop, hblen]
        rw [hrec]
        have harith : b + min (n - (cr + b) : Int).toNat
            (content.length - (pos + b))
            = min (n - cr).toNat (content.length - pos) := by
          omega
        refine Prod.ext ?_ (Prod.ext ?_ ?_) <;> simp only
        · omega
        · rw [hbuf, ← harith, List.take_add, utf8Len_append, List.drop_drop]
          push_cast
          omega
        · omega

/-- `move_by_n_characters_in_file(fd, n, buffer_size)` reads
`min n (length - pos)` characters and their UTF-8 bytes, advancing the
position accordingly (for `n ≤ 0` it reads nothing). -/
theorem move_spec (content : List Char) (pos : Nat) (n : Int) (bs : Nat)
    (hbs : 1 ≤ bs) :
    move_by_n_characters_in_file content pos n bs
      = (min n.toNat (content.length - pos),
         utf8Len ((content.drop pos).take
           (min n.toNat (content.length - pos))),
         pos + min n.toNat (content.length - pos)) := by
  unfold move_by_n_characters_in_file
  have h := moveGo_spec content bs hbs n (n.toNat + 1) pos 0 0 (by omega)
  rw [h]
  norm_num

theorem scanGo_nil (content : List Char) (fuel pos cip br total : Nat)
    (h : 1 ≤ fuel) :
    scanGo content fuel pos cip br total [] = ⟨pos, cip, br, total, none⟩ := by
  cases fuel with
  | zero => omega
  | succ f => simp [scanGo]

/-- The page-scan loop: entered with the current `line` (already read, the
position just past it and its length counted into `total`).  If no marker
is found, the scan consumes the rest of the file, adding exactly its UTF-8
bytes; if a marker is found at absolute position `m`, the scan stops with
`remainder` the slice from `m` to the end of the marker's line, having
added the bytes from the entry line's start up to `m`. -/
theorem scanGo_spec (content : List Char) :
    ∀ (fuel pos cip br total : Nat) (line : List Char),
    content.length - pos + 2 ≤ fuel →
    pos ≤ content.length →
    line.length ≤ pos →
    line = extractC content (pos - line.length) pos →
    (line = [] → pos = content.length) →
    (line ≠ [] → lineEnd content pos) →
    (match scanGo content fuel pos cip br total line with
      | ⟨pos3, _, br3, _, none⟩ =>
          pos3 = content.length ∧
          br3 = br + utf8Len (extractC content (pos - line.length)
            content.length)
      | ⟨pos3, _, br3, _, some rem⟩ =>
          ∃ m, markerAt content m ∧ pos - line.length ≤ m ∧
            m + rem.length = pos3 ∧ pos3 ≤ content.length ∧
            rem = extractC content m pos3 ∧ lineEnd content pos3 ∧
            br3 = br + utf8Len (extractC content (pos - line.length) m)) := by
  intro fuel
  induction fuel with
  | zero =>
    intro pos cip br total line hfuel
    omega
  | succ f ih =>
    intro pos cip br total line hfuel hpos hll hslice hemp hend
    by_cases hl : line.isEmpty
    · rw [List.isEmpty_iff] at hl
      subst hl
      rw [show scanGo content (f + 1) pos cip br total []
          = ⟨pos, cip, br, total, none⟩ from by simp [scanGo]]
      have hpl : pos = content.length := hemp rfl
      subst hpl
      simp only [List.length_nil, Nat.sub_zero]
      exact ⟨trivial, by rw [extractC_self]; simp [utf8Len]⟩
    · have hlne : line ≠ [] := by
        intro hc
        rw [hc] at hl
        exact hl rfl
      rcases hfs : findSub pageMarker line with _ | idx
      · -- no marker in this line: read the next line and recurse
        rw [show scanGo content (f + 1) pos cip br total line
            = scanGo content f (pos + (fdReadline content pos).length)
              (cip + line.length) (br + utf8Len line)
              (total + (fdReadline content pos).length)
              (fdReadline content pos) from by
          simp only [scanGo, hl, Bool.false_eq_true, if_false, hfs]]
        obtain ⟨hRslice, hRle, hRemp, hRend⟩ := fdReadline_spec content pos hpos
        by_cases hnil : fdReadline content pos = []
        · have hpl : pos = content.length := by
            rw [hRemp] at hnil
            omega
          rw [hnil, scanGo_nil content f _ _ _ _ (by omega)]
          simp only [List.length_nil, Nat.add_zero]
          refine ⟨hpl, ?_⟩
          rw [← hpl, ← hslice]
        · have hL1 : 1 ≤ (fdReadline content pos).length := by
            cases hfd : fdReadline content pos with
            | nil => exact absurd hfd hnil
            | cons x xs => simp
          have hkey := ih (pos + (fdReadline content pos).length)
            (cip + line.length) (br + utf8Len line)
            (total + (fdReadline content pos).length)
            (fdReadline content pos)
            (by omega) hRle (by omega)
            (by rw [Nat.add_sub_cancel]; exact hRslice)
            (fun hc => absurd hc hnil)
            (fun _ => hRend hnil)
          rcases hscan : scanGo content f (pos + (fdReadline content pos).length)
              (cip + line.length) (br + utf8Len line)
              (total + (fdReadline content pos).length)
              (fdReadline content pos) with ⟨pos3, cip3, br3, total3, fnd⟩
          rw [hscan] at hkey
          cases fnd with
          | none =>
            obtain ⟨hp3, hb3⟩ := hkey
            refine ⟨hp3, ?_⟩
            rw [hb3, Nat.add_sub_cancel]
            have hsplit : utf8Len line
                  + utf8Len (extractC content pos content.length)
                = utf8Len (extractC content (pos - line.length)
                    content.length) := by
              conv_lhs => rw [hslice]
              rw [← utf8Len_append, extractC_append content
                (pos - line.length) pos content.length (by omega) hpos]
            omega
          | some rem =>
            obtain ⟨m, hm, hms, hmr, hp3, hrem, hle3, hb3⟩ := hkey
            rw [Nat.add_sub_cancel] at hms
            refine ⟨m, hm, by omega, hmr, hp3, hrem, hle3, ?_⟩
            rw [hb3, Nat.add_sub_cancel]
            have hsplit : utf8Len line + utf8Len (extractC content pos m)
                = utf8Len (extractC content (pos - line.length) m) := by
              conv_lhs => rw [hslice]
              rw [← utf8Len_append, extractC_append content
                (pos - line.length) pos m (by omega) hms]
            omega
      · -- marker found in this line at offset idx
        rw [show scanGo content (f + 1) pos cip br total line
            = ⟨pos, cip + (line.take idx).length,
                br + utf8Len (line.take idx), total,
                some (line.drop idx)⟩ from by
          simp only [scanGo, hl, Bool.false_eq_true, if_false, hfs]]
        obtain ⟨hpref, hidxle⟩ := findSub_some pageMarker line idx hfs
        refine ⟨pos - line.length + idx, ?_, by omega, ?_, hpos, ?_, ?_, ?_⟩
        · -- markerAt: the marker is a prefix of the line's tail, which is a
          -- prefix of the content from that position
          unfold markerAt
          rw [List.isPrefixOf_iff_prefix] at hpref ⊢
          have hdrop : line.drop idx
              = extractC content (pos - line.length + idx) pos := by
            conv_lhs => rw [hslice]
            rw [extractC_drop]
          rw [hdrop] at hpref
          exact hpref.trans (extractC_prefix_drop content _ pos)
        · rw [List.length_drop]
          omega
        · conv_lhs => rw [hslice]
          rw [extractC_drop]
        · exact hend hlne
        · rw [show line.take idx
              = extractC content (pos - line.length)
                  (pos - line.length + idx) from by
            conv_lhs => rw [hslice]
            rw [extractC_take content _ pos idx (by omega)]]

/-- One loop iteration preserves the positional invariant: the two
coordinates of the appended border are byte offsets of good positions
(file start, marker start reached by the found branch, line end carried by
a stale remainder, or EOF), and the remainder bookkeeping survives every
branch. -/
theorem GBPos_processPart (content : List Char) (partSize : Nat)
    (st : GBState) (h : GBPos content st) :
    GBPos content (processPart content partSize st) := by
  obtain ⟨hpos, hball, r0, e0, hre, hel, hrem, hrlen, hlbb, hr0, he0g, hfr⟩ := h
  have hbs : (1 : Nat) ≤ BUFFER_SIZE := by norm_num [BUFFER_SIZE]
  simp only [processPart, move_spec content st.pos
    ((partSize * (st.i + 1) : Int) - st.totalCharactersRead) BUFFER_SIZE hbs]
  set k := min ((partSize * (st.i + 1) : Int)
    - st.totalCharactersRead).toNat (content.length - st.pos) with hk
  have hkle : k ≤ content.length - st.pos := by omega
  have hexk : (content.drop st.pos).take k
      = extractC content st.pos (st.pos + k) := by
    rw [extractC_eq, Nat.add_sub_cancel_left]
  have hstart : okBoundary content st.lastByteBorder := by
    refine ⟨r0, by omega, hlbb, ?_⟩
    rcases hr0 with h' | h'
    · exact Or.inl h'
    · exact Or.inr (Or.inr (Or.inr h'))
  have hstale_end : okBoundary content (byteAt content e0) := by
    refine ⟨e0, hel, rfl, ?_⟩
    rcases he0g with h' | h'
    · exact Or.inl h'
    · rcases h' with h' | h'
      · exact Or.inr (Or.inl h')
      · exact Or.inr (Or.inr (Or.inl h'))
  by_cases hc : ((k + st.remainder.length : Nat) : Int)
      < (partSize * (st.i + 1) : Int) - st.totalCharactersRead
  · rw [if_pos hc]
    unfold GBPos
    dsimp only
    have hpos1 : st.pos + k = content.length := by omega
    have hendok : okBoundary content (st.lastByteBorder
        + (utf8Len ((content.drop st.pos).take k)
          + utf8Len st.remainder)) := by
      rcases hfr with hfresh | hstale
      · have e1 := byteAt_add content r0 st.pos (by omega)
        have e2 := byteAt_add content st.pos (st.pos + k) (by omega)
        refine ⟨content.length, Nat.le_refl _, ?_, Or.inr (Or.inl rfl)⟩
        rw [← hpos1, hexk, hlbb, hrem, hfresh]
        omega
      · have hk0 : k = 0 := by omega
        have e1 := byteAt_add content r0 e0 hre
        refine ⟨e0, hel, ?_, ?_⟩
        · rw [hk0, hlbb, hrem]
          simp only [List.take_zero, utf8Len_nil, Nat.zero_add]
          omega
        · rcases he0g with h' | h'
          · exact Or.inl h'
          · rcases h' with h' | h'
            · exact Or.inr (Or.inl h')
            · exact Or.inr (Or.inr (Or.inl h'))
    refine ⟨by omega, ?_, r0, e0, hre, hel, hrem, hrlen, hlbb,
      hr0, he0g, Or.inr (by omega)⟩
    intro p hp
    rcases List.mem_append.mp hp with hin | hin
    · exact hball p hin
    · rw [List.mem_singleton] at hin
      subst hin
      exact ⟨hstart, hendok⟩
  · rw [if_neg hc]
    have hpos1le : st.pos + k ≤ content.length := by omega
    obtain ⟨hRslice, hRle, hRemp, hRend⟩ :=
      fdReadline_spec content (st.pos + k) hpos1le
    have hkey := scanGo_spec content (content.length + 2)
      (st.pos + k + (fdReadline content (st.pos + k)).length)
      (k + st.remainder.length)
      (utf8Len ((content.drop st.pos).take k) + utf8Len st.remainder)
      (st.totalCharactersRead + (k + st.remainder.length)
        + (fdReadline content (st.pos + k)).length)
      (fdReadline content (st.pos + k))
      (by omega) hRle (by omega)
      (by rw [Nat.add_sub_cancel]; exact hRslice)
      (fun hc' => by
        have h0 : (fdReadline content (st.pos + k)).length = 0 := by
          rw [hc']
          rfl
        have h1 := hRemp.mp hc'
        omega)
      (fun h' => hRend h')
    rcases hres : scanGo content (content.length + 2)
        (st.pos + k + (fdReadline content (st.pos + k)).length)
        (k + st.remainder.length)
        (utf8Len ((content.drop st.pos).take k) + utf8Len st.remainder)
        (st.totalCharactersRead + (k + st.remainder.length)
          + (fdReadline content (st.pos + k)).length)
        (fdReadline content (st.pos + k)) with ⟨pos3, cip3, br3, total3, fnd⟩
    rw [hres] at hkey
    cases fnd with
    | some rem =>
      simp only at hkey
      unfold GBPos
      dsimp only
      obtain ⟨m, hm, hms, hmr, hp3le, hremeq, hle3, hb3⟩ := hkey
      rw [Nat.add_sub_cancel] at hms hb3
      rcases hfr with hfresh | hstale
      · have hendm : st.lastByteBorder + br3 = byteAt content m := by
          have e1 := byteAt_add content r0 st.pos (by omega)
          have e2 := byteAt_add content st.pos (st.pos + k) (by omega)
          have e3 := byteAt_add content (st.pos + k) m hms
          rw [hb3, hexk, hlbb, hrem, hfresh]
          omega
        refine ⟨hp3le, ?_, m, pos3, by omega, hp3le, hremeq, by omega,
          hendm, Or.inr hm, Or.inr hle3, Or.inl rfl⟩
        intro p hp
        rcases List.mem_append.mp hp with hin | hin
        · exact hball p hin
        · rw [List.mem_singleton] at hin
          subst hin
          refine ⟨hstart, m, by omega, hendm, Or.inr (Or.inr (Or.inr hm))⟩
      · exfalso
        have hk0 : k = 0 := by omega
        have hlin : fdReadline content (st.pos + k) = [] :=
          hRemp.mpr (by omega)
        rw [hlin, scanGo_nil content _ _ _ _ _ (by omega)] at hres
        simp at hres
    | none =>
      simp only at hkey
      unfold GBPos
      dsimp only
      obtain ⟨hp3, hb3⟩ := hkey
      rw [Nat.add_sub_cancel] at hb3
      have hendok : okBoundary content (st.lastByteBorder + br3) := by
        rcases hfr with hfresh | hstale
        · have e1 := byteAt_add content r0 st.pos (by omega)
          have e2 := byteAt_add content st.pos (st.pos + k) (by omega)
          have e3 := byteAt_add content (st.pos + k) content.length hpos1le
          refine ⟨content.length, Nat.le_refl _, ?_, Or.inr (Or.inl rfl)⟩
          rw [hb3, hexk, hlbb, hrem, hfresh]
          omega
        · have hk0 : k = 0 := by omega
          have hlin : fdReadline content (st.pos + k) = [] :=
            hRemp.mpr (by omega)
          have hL0 : (fdReadline content (st.pos + k)).length = 0 := by
            rw [hlin]
            rfl
          have e1 := byteAt_add content r0 e0 hre
          have hself : extractC content (st.pos + k) content.length
              = [] := by
            rw [show st.pos + k = content.length by omega]
            exact extractC_self content content.length
          refine ⟨e0, hel, ?_, ?_⟩
          · rw [hb3, hself, hk0, hlbb, hrem]
            simp only [List.take_zero, utf8Len_nil, Nat.zero_add,
              Nat.add_zero]
            omega
          · rcases he0g with h' | h'
            · exact Or.inl h'
            · rcases h' with h' | h'
              · exact Or.inr (Or.inl h')
              · exact Or.inr (Or.inr (Or.inl h'))
      refine ⟨by omega, ?_, r0, e0, hre, hel, hrem, hrlen, hlbb, hr0, he0g,
        Or.inr (by omega)⟩
      intro p hp
      rcases List.mem_append.mp hp with hin | hin
      · exact hball p hin
      · rw [List.mem_singleton] at hin
        subst hin
        exact ⟨hstart, hendok⟩

theorem GBPos_loop (content : List Char) (partSize : Nat) :
    ∀ (rem : Nat) (st : GBState), GBPos content st →
      GBPos content (getBordersLoop content partSize rem st) := by
  intro rem
  induction rem with
  | zero => intro st h; exact h
  | succ n ih =>
    intro st h
    exact ih (processPart content partSize st) (GBPos_processPart _ _ _ h)

theorem GBPos_initial (content : List Char) :
    GBPos content ⟨0, 0, 0, [], [], [], [], 0⟩ := by
  refine ⟨Nat.zero_le _, ?_, 0, 0, Nat.le_refl _, Nat.zero_le _, rfl, rfl,
    rfl, Or.inl rfl, Or.inl rfl, Or.inl rfl⟩
  intro p hp
  cases hp

/-- **C1.** (corrected)  `get_borders_with_documents_intact` always returns
exactly `num_parts` byte ranges (and as many character counts), and the
first range starts at byte 0; a range is contiguous with its successor —
the successor's start equals its end — whenever its part exited the loop
through the `'<page'`-found branch, because only that branch updates
`last_byte_border`; and no coordinate of any returned range lies strictly
inside a `'<page'` marker occurrence (every coordinate is the byte offset
of the file start, a marker start, a line start, or EOF).  Full gap-free
coverage as claimed does not hold: a part that ends at EOF without finding
a marker leaves `last_byte_border` stale, so the next range restarts at the
old border (see the counterexample, file `'ab'` with 2 parts). -/
theorem get_borders_found_chained (content : List Char) (N : Nat) :
    (get_borders_with_documents_intact content N).1.length = N ∧
    (get_borders_with_documents_intact content N).2.length = N ∧
    (∀ b, (get_borders_with_documents_intact content N).1.head? = some b →
      b.1 = 0) ∧
    (∀ j, j + 1 < N →
      (get_borders_branches content N).getD j Branch.eofScan = Branch.found →
      ((get_borders_with_documents_intact content N).1.getD (j + 1) (0, 0)).1
        = ((get_borders_with_documents_intact content N).1.getD j (0, 0)).2) ∧
    ∀ p ∈ (get_borders_with_documents_intact content N).1, ∀ q,
      markerAt content q →
      ¬ (byteAt content q < p.1 ∧ p.1 < byteAt content q + 5) ∧
      ¬ (byteAt content q < p.2 ∧ p.2 < byteAt content q + 5) := by
  simp only [get_borders_with_documents_intact, get_borders_branches,
    getBordersFinal]
  obtain ⟨h1, h2, h3, h4, h5, h6⟩ := GBInv_loop content (content.length / N) N
    ⟨0, 0, 0, [], [], [], [], 0⟩ GBInv_initial
  obtain ⟨hb, hc, hbr⟩ := getBordersLoop_lengths content (content.length / N) N
    ⟨0, 0, 0, [], [], [], [], 0⟩
  obtain ⟨hple, hok, _⟩ := GBPos_loop content (content.length / N) N
    ⟨0, 0, 0, [], [], [], [], 0⟩ (GBPos_initial content)
  have hb' : (getBordersLoop content (content.length / N) N
      ⟨0, 0, 0, [], [], [], [], 0⟩).byteBorders.length = N := by
    rw [hb]; simp
  have hc' : (getBordersLoop content (content.length / N) N
      ⟨0, 0, 0, [], [], [], [], 0⟩).numCharactersInPart.length = N := by
    rw [hc]; simp
  refine ⟨hb', by rw [h2, hb'], h3, ?_, ?_⟩
  · intro j hj hbrj
    exact h6 j (by rw [hb']; omega) hbrj
  · intro p hp q hq
    obtain ⟨hok1, hok2⟩ := hok p hp
    exact ⟨okBoundary_not_inside content p.1 q hok1 hq,
      okBoundary_not_inside content p.2 q hok2 hq⟩

/-- Counterexample to C1: for the two-character file `'ab'` and 2 parts the
function returns the ranges `[(0, 2), (0, 0)]` — the second range does not
start at the first range's end, so the ranges neither tile the file nor
avoid overlap.  (Part 0 consumes the whole file through the page scan
without finding a marker, which never updates `last_byte_border`.) -/
theorem get_borders_gap_cex :
    get_borders_with_documents_intact ('a' :: 'b' :: []) 2
        = ([(0, 2), (0, 0)], [2, 0]) ∧
      ¬ (((get_borders_with_documents_intact ('a' :: 'b' :: []) 2).1.getD 1
            (0, 0)).1
          = ((get_borders_with_documents_intact ('a' :: 'b' :: []) 2).1.getD 0
            (0, 0)).2) := by
  decide

/-- Witness for C1 on the 16-character file `"abcdef\ng<page h\n"` split in
two parts: part 0 exits through the `'<page'`-found branch at byte 8, the
second range `(8, 16)` starts exactly at the first range's end, and the
range `(0, 8)` has no coordinate strictly inside the marker occurrence at
character position 8. -/
theorem get_borders_found_chained_witness :
    ((0 : Nat) + 1 < 2 ∧
      (get_borders_branches ("abcdef\ng<page h\n".toList) 2).getD 0
          Branch.eofScan = Branch.found ∧
      ((0 : Nat), (8 : Nat))
          ∈ (get_borders_with_documents_intact ("abcdef\ng<page h\n".toList)
            2).1 ∧
      markerAt ("abcdef\ng<page h\n".toList) 8) ∧
    (((get_borders_with_documents_intact ("abcdef\ng<page h\n".toList)
          2).1.getD 1 (0, 0)).1
        = ((get_borders_with_documents_intact ("abcdef\ng<page h\n".toList)
          2).1.getD 0 (0, 0)).2) ∧
    (¬ (byteAt ("abcdef\ng<page h\n".toList) 8 < (0 : Nat) ∧
        (0 : Nat) < byteAt ("abcdef\ng<page h\n".toList) 8 + 5) ∧
      ¬ (byteAt ("abcdef\ng<page h\n".toList) 8 < (8 : Nat) ∧
        (8 : Nat) < byteAt ("abcdef\ng<page h\n".toList) 8 + 5)) :=
  ⟨⟨by decide, by decide, by decide, by unfold markerAt; rfl⟩,
    (get_borders_found_chained ("abcdef\ng<page h\n".toList) 2).2.2.2.1 0
      (by decide) (by decide),
    (get_borders_found_chained ("abcdef\ng<page h\n".toList) 2).2.2.2.2
      (0, 8) (by decide) 8 (by unfold markerAt; rfl)⟩

/-- On an empty file every loop iteration reads nothing, scans nothing, and
appends the degenerate border `(last_byte_border, last_byte_border)` through
the not-found exit. -/
theorem getBordersLoop_empty : ∀ (rem : Nat) (st : GBState),
    st.remainder = [] → st.totalCharactersRead = 0 →
    getBordersLoop [] 0 rem st
      = ⟨st.pos, st.lastByteBorder, 0, [],
          st.byteBorders
            ++ List.replicate rem (st.lastByteBorder, st.lastByteBorder),
          st.numCharactersInPart ++ List.replicate rem 0,
          st.branches ++ List.replicate rem Branch.eofScan, st.i + rem⟩ := by
  intro rem
  induction rem with
  | zero =>
    intro st hrem htot
    cases st
    simp only at hrem htot
    subst hrem htot
    simp [getBordersLoop]
  | succ n ih =>
    intro st hrem htot
    have hpp : processPart [] 0 st
        = ⟨st.pos, st.lastByteBorder, 0, [],
            st.byteBorders ++ [(st.lastByteBorder, st.lastByteBorder)],
            st.numCharactersInPart ++ [0],
            st.branches ++ [Branch.eofScan], st.i + 1⟩ := by
      simp [processPart, move_by_n_characters_in_file, moveGo, fdRead,
        fdReadline, takeLine, scanGo, utf8Len, hrem, htot]
    have hstep : getBordersLoop [] 0 (n + 1) st
        = getBordersLoop [] 0 n (processPart [] 0 st) := rfl
    rw [hstep, hpp, ih _ rfl rfl]
    simp [List.append_assoc, List.replicate_succ]
    omega

/-- **C7.** (corrected)  For an empty file
`get_borders_with_documents_intact` does not raise: the function contains no
`raise` at all.  Every one of the `num_parts` loop iterations reads zero
characters and appends the degenerate range `(0, 0)` with a character count
of 0, so the call returns `num_parts` copies of `(0, 0)` and of `0`. -/
theorem get_borders_empty_file (N : Nat) :
    get_borders_with_documents_intact [] N
      = (List.replicate N (0, 0), List.replicate N 0) := by
  simp only [get_borders_with_documents_intact, getBordersFinal]
  rw [show ([] : List Char).length / N = 0 from by simp]
  rw [getBordersLoop_empty N ⟨0, 0, 0, [], [], [], [], 0⟩ rfl rfl]
  simp

/-- Counterexample to C7: the empty file with 3 requested parts yields three
degenerate ranges and counts — a normal return, not a `ValueError`. -/
theorem get_borders_empty_no_error_cex :
    get_borders_with_documents_intact [] 3
      = ([(0, 0), (0, 0), (0, 0)], [0, 0, 0]) := by
  decide

/-- Witness for C2, instantiating the infeasible scenario of the claim:
two shard files supporting at most 3 and 5 segments (8 in total) with a
requested `dev_size + test_size` of 10. -/
theorem get_how_many_segments_ok_or_raises_witness :
    ([5, 5] : List Nat).length = ([3, 5] : List Nat).length ∧
    ((∀ l, get_how_many_segments_to_cut_by_files [5, 5] [3, 5] 10 [0, 1] [0, 1] = .ok l →
        l.length = ([5, 5] : List Nat).length ∧ l.sum = 10 ∧
          ∀ i, l.getD i 0 ≤ ([3, 5] : List Nat).getD i 0)
      ∧ (([3, 5] : List Nat).sum < 10 →
        ∃ e, get_how_many_segments_to_cut_by_files [5, 5] [3, 5] 10 [0, 1] [0, 1]
          = .error e)) :=
  ⟨rfl, get_how_many_segments_ok_or_raises [5, 5] [3, 5] 10 [0, 1] [0, 1] rfl⟩

end NeMoPrep
